import Mathlib

/-!
Verification of the `can` content-addressed object store (Git-like key-value
database): canonical codec for blob/tree/commit objects, SHA-1 content
addressing with read-time verification, and the hierarchical key-value layer
("Sugar"). Byte streams are modelled as `List Nat` (each element a byte value),
Go strings as their byte sequences, and the repository directory as a pure
association store from object IDs to encoded bytes plus an optional head ID.
-/

namespace Can

/-- A byte stream (Go `[]byte` / `string`); each element is a byte value. -/
abbrev Bytes := List Nat

/-! ## 32-bit machine arithmetic (for SHA-1)

Machine words are `Nat` values kept below `2 ^ 32`; bitwise operations are
defined by explicit recursion over the 32 bit positions using only division
and remainder, so that they evaluate inside the kernel. -/

/-- Combine `k` low bits of `x` and `y` with the bit function `f`. -/
def bitw : Nat → (Nat → Nat → Nat) → Nat → Nat → Nat
  | 0, _, _, _ => 0
  | k + 1, f, x, y => f (x % 2) (y % 2) + 2 * bitw k f (x / 2) (y / 2)

/-- 32-bit exclusive or. -/
def xor32 (x y : Nat) : Nat := bitw 32 (fun a b => (a + b) % 2) x y

/-- 32-bit bitwise and. -/
def and32 (x y : Nat) : Nat := bitw 32 (fun a b => a * b) x y

/-- 32-bit bitwise or. -/
def or32 (x y : Nat) : Nat := bitw 32 (fun a b => a + b - a * b) x y

/-- 32-bit complement. -/
def not32 (x : Nat) : Nat := 4294967295 - x % 4294967296

/-- 32-bit modular addition. -/
def add32 (x y : Nat) : Nat := (x + y) % 4294967296

/-- Rotate a 32-bit word left by `n` bits. -/
def rotl32 (n x : Nat) : Nat :=
  (x % 4294967296 * 2 ^ n) % 4294967296 + x % 4294967296 / 2 ^ (32 - n)

/-- Apply `k` to `n` after forcing `n` to a numeral: matching on the
constructors makes evaluation compute `n` once and pass the result on, so
that concrete digests evaluate with shallow recursion. Semantically the
identity (`natCase n k = k n` by cases on `n`). -/
def natCase {α : Type} (n : Nat) (k : Nat → α) : α :=
  match n with
  | 0 => k 0
  | m + 1 => k (m + 1)

/-! ## SHA-1 (crypto/sha1), the content fingerprint -/

/-- SHA-1 round function: choose / parity / majority / parity. -/
def sha1F (t b c d : Nat) : Nat :=
  if t < 20 then or32 (and32 b c) (and32 (not32 b) d)
  else if t < 40 then xor32 (xor32 b c) d
  else if t < 60 then or32 (or32 (and32 b c) (and32 b d)) (and32 c d)
  else xor32 (xor32 b c) d

/-- SHA-1 round constants. -/
def sha1K (t : Nat) : Nat :=
  if t < 20 then 1518500249
  else if t < 40 then 1859775393
  else if t < 60 then 2400959708
  else 3395469782

/-- Split bytes into big-endian 32-bit words (`fuel` bounds the recursion). -/
def chunk4 : Nat → Bytes → List Nat
  | 0, _ => []
  | f + 1, a :: b :: c :: d :: rest => (((a * 256 + b) * 256 + c) * 256 + d) :: chunk4 f rest
  | _ + 1, _ => []

/-- Extend the message schedule by `k` words; the accumulator holds the
words produced so far in most-recent-first order. -/
def sha1Extend : Nat → List Nat → List Nat
  | 0, ws => ws
  | k + 1, ws =>
    natCase
      (rotl32 1 (xor32 (xor32 (ws.getD 2 0) (ws.getD 7 0)) (xor32 (ws.getD 13 0) (ws.getD 15 0))))
      (fun w => sha1Extend k (w :: ws))

/-- The 80 SHA-1 rounds over the schedule words, starting at round `t`. -/
def sha1Rounds : List Nat → Nat → Nat → Nat → Nat → Nat → Nat → Nat × Nat × Nat × Nat × Nat
  | [], _, a, b, c, d, e => (a, b, c, d, e)
  | w :: ws, t, a, b, c, d, e =>
    natCase (add32 (add32 (add32 (rotl32 5 a) (sha1F t b c d)) (add32 e (sha1K t))) w)
      (fun temp =>
        natCase (rotl32 30 b) (fun b2 => sha1Rounds ws (t + 1) temp a b2 c d))

/-- Big-endian 8-byte encoding of a natural number. -/
def be8 (n : Nat) : Bytes :=
  [n / 2 ^ 56 % 256, n / 2 ^ 48 % 256, n / 2 ^ 40 % 256, n / 2 ^ 32 % 256,
   n / 2 ^ 24 % 256, n / 2 ^ 16 % 256, n / 2 ^ 8 % 256, n % 256]

/-- Big-endian 4-byte encoding of a 32-bit word. -/
def be4 (n : Nat) : Bytes :=
  [n / 2 ^ 24 % 256, n / 2 ^ 16 % 256, n / 2 ^ 8 % 256, n % 256]

/-- SHA-1 padding: a 0x80 byte, zeros to 56 mod 64, then the bit length. -/
def sha1Pad (msg : Bytes) : Bytes :=
  msg ++ 128 :: List.replicate ((119 - msg.length % 64) % 64) 0 ++ be8 (msg.length * 8)

/-- Process the padded message 64-byte block by block (`fuel` bounds the recursion). -/
def sha1Blocks : Nat → Nat × Nat × Nat × Nat × Nat → Bytes → Nat × Nat × Nat × Nat × Nat
  | 0, h, _ => h
  | _ + 1, h, [] => h
  | f + 1, (h0, h1, h2, h3, h4), bs =>
    let ws := (sha1Extend 64 (chunk4 16 (bs.take 64)).reverse).reverse
    match sha1Rounds ws 0 h0 h1 h2 h3 h4 with
    | (a, b, c, d, e) =>
      natCase (add32 h0 a) (fun g0 =>
        natCase (add32 h1 b) (fun g1 =>
          natCase (add32 h2 c) (fun g2 =>
            natCase (add32 h3 d) (fun g3 =>
              natCase (add32 h4 e) (fun g4 =>
                sha1Blocks f (g0, g1, g2, g3, g4) (bs.drop 64))))))

/-- SHA-1 digest (20 bytes) of a byte stream. -/
def sha1 (msg : Bytes) : Bytes :=
  let p := sha1Pad msg
  match sha1Blocks p.length (1732584193, 4023233417, 2562383102, 271733878, 3285377520) p with
  | (h0, h1, h2, h3, h4) => be4 h0 ++ be4 h1 ++ be4 h2 ++ be4 h3 ++ be4 h4

/-! ## Object model (`format.go`)

IDs are raw digest byte sequences (`type ID []byte`); the nil ID is `[]`.
Entry kinds are byte strings, as in Go (`type Kind string`). Go strings are
modelled as their byte sequences, so all comparisons are byte-wise. -/

/-- An object ID: raw bytes of the digest; `[]` is the nil sentinel. -/
abbrev ID := Bytes

/-- A tree entry: `Entry{Kind, Name, ID}`. -/
structure Entry where
  kind : Bytes
  name : Bytes
  id : ID
deriving DecidableEq, Repr

/-- A tree: a list of entries. -/
abbrev Tree := List Entry

/-- `time.Time` restricted to what the commit format stores: Unix seconds
and the zone offset in seconds. The codec never observes sub-second parts;
the local zone produced by `time.Unix` before the explicit offset is applied
is modelled as offset 0 (canonical streams always carry an offset). -/
structure GoTime where
  unix : Int
  offset : Int
deriving DecidableEq, Repr

/-- The zero `time.Time`: Unix seconds of January 1, year 1, UTC. -/
def zeroTime : GoTime := ⟨-62135596800, 0⟩

/-- A commit object. `message = none` models a nil `[]byte`. -/
structure Commit where
  tree : ID
  parents : List ID
  time : GoTime
  message : Option Bytes
deriving DecidableEq, Repr

/-- The zero-value `Commit`. -/
def zeroCommit : Commit := ⟨[], [], zeroTime, none⟩

/-- Byte string "blob". -/
def kindBlob : Bytes := [98, 108, 111, 98]

/-- Byte string "tree". -/
def kindTree : Bytes := [116, 114, 101, 101]

/-- Byte string "parent". -/
def fieldParent : Bytes := [112, 97, 114, 101, 110, 116]

/-- Byte string "time". -/
def fieldTime : Bytes := [116, 105, 109, 101]

/-- The 5-byte blob header "blob\n". -/
def blobHeader : Bytes := [98, 108, 111, 98, 10]

/-- The 5-byte tree header "tree\n". -/
def treeHeader : Bytes := [116, 114, 101, 101, 10]

/-- The 7-byte commit header "commit\n". -/
def commitHeader : Bytes := [99, 111, 109, 109, 105, 116, 10]

/-! ## Hex IDs (`ParseID`, `ID.String`) -/

/-- Lowercase hex digit character for a nibble. -/
def hexDigitChar (n : Nat) : Nat := if n < 10 then 48 + n else 87 + n

/-- Lowercase hex rendering of raw bytes (`fmt %x`, `ID.String`). -/
def hexEncode : Bytes → Bytes
  | [] => []
  | b :: bs => hexDigitChar (b / 16) :: hexDigitChar (b % 16) :: hexEncode bs

/-- Value of one hex character (`0-9a-fA-F`), as in `encoding/hex`. -/
def fromHexChar (c : Nat) : Option Nat :=
  if 48 ≤ c ∧ c ≤ 57 then some (c - 48)
  else if 97 ≤ c ∧ c ≤ 102 then some (c - 87)
  else if 65 ≤ c ∧ c ≤ 70 then some (c - 55)
  else none

/-- `hex.DecodeString`: fails on odd length or a non-hex character. -/
def hexDecode : Bytes → Option Bytes
  | [] => some []
  | [_] => none
  | a :: b :: rest =>
    match fromHexChar a, fromHexChar b, hexDecode rest with
    | some x, some y, some tl => some ((x * 16 + y) :: tl)
    | _, _, _ => none

/-- `ParseID`: empty string is the nil ID; otherwise hex-decode. -/
def parseID (s : Bytes) : Option ID :=
  if s = [] then some [] else hexDecode s

/-! ## Decimal integers (`fmt %d`, `%+d`; `strconv.ParseInt`) -/

/-- Decimal digit characters of a positive number, most significant first
(`fuel` bounds the recursion; `fuel = n` suffices). -/
def natDecAux : Nat → Nat → Bytes
  | 0, _ => []
  | _ + 1, 0 => []
  | f + 1, n => natDecAux f (n / 10) ++ [48 + n % 10]

/-- Decimal digits (ASCII) of a natural number, most significant first. -/
def natDec (n : Nat) : Bytes :=
  if n = 0 then [48] else natDecAux n n

/-- `fmt %d` of an `int64`. -/
def intDec (i : Int) : Bytes :=
  if i < 0 then 45 :: natDec i.natAbs else natDec i.natAbs

/-- `fmt %+d` of an `int64`: always emits a sign. -/
def intDecSigned (i : Int) : Bytes :=
  if i < 0 then 45 :: natDec i.natAbs else 43 :: natDec i.natAbs

/-- ASCII decimal digit test. -/
def isDigit (c : Nat) : Bool := 48 ≤ c && c ≤ 57

/-- Value of a digit string, most significant first. -/
def decValue (s : Bytes) : Nat := s.foldl (fun a c => a * 10 + (c - 48)) 0

/-- Parse a non-empty all-digit string. -/
def parseDigits (s : Bytes) : Option Nat :=
  if s ≠ [] ∧ s.all isDigit then some (decValue s) else none

/-- `strconv.ParseInt(s, 10, 64)`: optional sign, decimal digits,
64-bit signed range. -/
def parseInt (s : Bytes) : Option Int :=
  match s with
  | [] => none
  | c :: rest =>
    if c = 43 then
      (parseDigits rest).bind fun n =>
        if n ≤ 9223372036854775807 then some (n : Int) else none
    else if c = 45 then
      (parseDigits rest).bind fun n =>
        if n ≤ 9223372036854775808 then some (-(n : Int)) else none
    else
      (parseDigits s).bind fun n =>
        if n ≤ 9223372036854775807 then some (n : Int) else none

/-! ## Canonical codec (`defaultFormat`) -/

/-- `EncodeBlob`: the header followed by the raw value bytes. -/
def encodeBlob (data : Bytes) : Bytes := blobHeader ++ data

/-- `DecodeBlob`: verify the 5-byte header, the rest is the value. -/
def decodeBlob (s : Bytes) : Option Bytes :=
  if s.take 5 = blobHeader then some (s.drop 5) else none

/-- Go `<` on strings: byte-wise lexicographic order. -/
def bytesLt : Bytes → Bytes → Bool
  | [], [] => false
  | [], _ :: _ => true
  | _ :: _, [] => false
  | a :: as, b :: bs => if a < b then true else if b < a then false else bytesLt as bs

/-- Insert an entry into a name-sorted tree at its sorted position. -/
def insertEntry (e : Entry) : Tree → Tree
  | [] => [e]
  | x :: xs => if bytesLt x.name e.name then x :: insertEntry e xs else e :: x :: xs

/-- Sort tree entries ascending by name (`sort.Sort(t)` in `EncodeTree`;
deterministic here, which matches Go whenever names are unique). -/
def sortTree : Tree → Tree
  | [] => []
  | e :: es => insertEntry e (sortTree es)

/-- One encoded tree entry line: `"<kind> <hexID> <nameLen> <name>\n"`. -/
def encodeEntry (e : Entry) : Bytes :=
  e.kind ++ 32 :: hexEncode e.id ++ 32 :: natDec e.name.length ++ 32 :: e.name ++ [10]

/-- Concatenated encoded entry lines. -/
def encodeEntries : Tree → Bytes
  | [] => []
  | e :: es => encodeEntry e ++ encodeEntries es

/-- `EncodeTree`: header, then the entry lines in sorted order. -/
def encodeTree (t : Tree) : Bytes := treeHeader ++ encodeEntries (sortTree t)

/-- `bufio.ReadString(sep)`: the bytes read including the delimiter, and the
rest of the stream; `none` when the stream ends before the delimiter. -/
def readUntil (sep : Nat) : Bytes → Option (Bytes × Bytes)
  | [] => none
  | b :: bs =>
    if b = sep then some ([b], bs)
    else
      match readUntil sep bs with
      | some (d, r) => some (b :: d, r)
      | none => none

/-- The entry-reading loop of `DecodeTree` (`fuel` bounds the recursion; each
entry consumes at least one byte, so `fuel = stream length` suffices).
A short or negative-length name read models the slice-bounds panic as `none`. -/
def decodeTreeLoop : Nat → Bytes → Tree → Option Tree
  | _, [], acc => some acc
  | 0, _ :: _, _ => none
  | f + 1, s, acc =>
    match readUntil 32 s with
    | none => none
    | some (kindTok, r1) =>
      match readUntil 32 r1 with
      | none => none
      | some (idTok, r2) =>
        match parseID idTok.dropLast with
        | none => none
        | some id =>
          match readUntil 32 r2 with
          | none => none
          | some (lenTok, r3) =>
            match parseInt lenTok.dropLast with
            | none => none
            | some len =>
              let nm := r3.take (len + 1).toNat
              if nm = [] then none
              else
                decodeTreeLoop f (r3.drop (len + 1).toNat)
                  (acc ++ [{ kind := kindTok.dropLast, name := nm.dropLast, id := id }])

/-- `DecodeTree`: verify the header, then read entry lines to end of stream. -/
def decodeTree (s : Bytes) : Option Tree :=
  if s.take 5 = treeHeader then decodeTreeLoop (s.drop 5).length (s.drop 5) [] else none

/-- Encoded parent lines of a commit. -/
def encodeParents : List ID → Bytes
  | [] => []
  | p :: ps => fieldParent ++ 32 :: hexEncode p ++ 10 :: encodeParents ps

/-- `EncodeCommit`: header, tree line, parent lines, time line, blank line,
then the raw message (nil message encodes as no bytes). -/
def encodeCommit (c : Commit) : Bytes :=
  commitHeader
    ++ kindTree ++ 32 :: hexEncode c.tree ++ [10]
    ++ encodeParents c.parents
    ++ fieldTime ++ 32 :: intDec c.time.unix ++ 32 :: intDecSigned c.time.offset ++ [10]
    ++ 10 :: c.message.getD []

/-- `strings.Split` on a single byte separator. -/
def splitOnByte (sep : Nat) : Bytes → List Bytes
  | [] => [[]]
  | b :: bs =>
    if b = sep then [] :: splitOnByte sep bs
    else
      match splitOnByte sep bs with
      | h :: t => (b :: h) :: t
      | [] => [[b]]

/-- The indexed walk over the space-separated parts of the time value:
part 0 is the Unix seconds (`time.Unix`, zone modelled as offset 0 until
the explicit offset arrives), part 1 the zone offset; every part must parse. -/
def applyTimeParts (c : Commit) : List Bytes → Nat → Option Commit
  | [], _ => some c
  | p :: ps, i =>
    match parseInt p with
    | none => none
    | some v =>
      let c2 :=
        if i = 0 then { c with time := { unix := v, offset := 0 } }
        else if i = 1 then { c with time := { unix := c.time.unix, offset := v } }
        else c
      applyTimeParts c2 ps (i + 1)

/-- `IsZero` reset: an empty (zero-instant) time decodes to the zero value. -/
def normTime (t : GoTime) : GoTime :=
  if t.unix = -62135596800 then zeroTime else t

/-- The field loop of `DecodeCommit`: reads `field ' ' value '\n'` lines,
stopping after the `time` field (`fuel` bounds the recursion). Returns the
commit built so far and the unconsumed stream. -/
def decodeCommitFields : Nat → Bytes → Commit → Option (Commit × Bytes)
  | 0, _, _ => none
  | f + 1, s, c =>
    match readUntil 32 s with
    | none => none
    | some (fieldTok, r1) =>
      match readUntil 10 r1 with
      | none => none
      | some (valTok, r2) =>
        let fld := fieldTok.dropLast
        let val := valTok.dropLast
        if fld = kindTree then
          match parseID val with
          | none => none
          | some id => decodeCommitFields f r2 { c with tree := id }
        else if fld = fieldParent then
          match parseID val with
          | none => none
          | some id => decodeCommitFields f r2 { c with parents := c.parents ++ [id] }
        else if fld = fieldTime then
          match applyTimeParts c (splitOnByte 32 val) 0 with
          | none => none
          | some c2 => some ({ c2 with time := normTime c2.time }, r2)
        else none

/-- `DecodeCommit`: header, field lines through `time`, a blank line, then
the message; an empty message stays nil. -/
def decodeCommit (s : Bytes) : Option Commit :=
  if s.take 7 = commitHeader then
    match decodeCommitFields ((s.drop 7).length + 1) (s.drop 7) zeroCommit with
    | none => none
    | some (c, r) =>
      match r with
      | 10 :: msg => some (if msg = [] then c else { c with message := some msg })
      | _ => none
  else none

/-! ## Tree lookup and update (`Tree.Get`, `Tree.Add`, `Tree.index`) -/

/-- Placeholder entry for out-of-range indexing (never reached when the
search index is in range). -/
def dummyEntry : Entry := ⟨[], [], []⟩

/-- The binary-search loop of `sort.Search(len(t), fun i => t[i].Name >= name)`
(`fuel` bounds the recursion; the interval halves each step). -/
def searchLoop (t : Tree) (name : Bytes) : Nat → Nat → Nat → Nat
  | 0, i, _ => i
  | f + 1, i, j =>
    if i < j then
      let h := (i + j) / 2
      if bytesLt (t.getD h dummyEntry).name name then searchLoop t name f (h + 1) j
      else searchLoop t name f i h
    else i

/-- `Tree.index`: binary-search position if it holds the name, else none (-1). -/
def treeIndex (t : Tree) (name : Bytes) : Option Nat :=
  let i := searchLoop t name (t.length + 1) 0 t.length
  if i < t.length ∧ (t.getD i dummyEntry).name = name then some i else none

/-- `Tree.Get`: the entry with the given name found by binary search, or none.
The tree must be sorted for this to be reliable. -/
def treeGet (t : Tree) (name : Bytes) : Option Entry :=
  match treeIndex t name with
  | some i => some (t.getD i dummyEntry)
  | none => none

/-- `Tree.Add`: replace the entry found by `index`, else append at the end. -/
def treeAdd (t : Tree) (e : Entry) : Tree :=
  match treeIndex t e.name with
  | some i => t.set i e
  | none => t ++ [e]

/-- Strict ascending-by-name order of a tree's entries. -/
def treeSorted : Tree → Bool
  | [] => true
  | [_] => true
  | a :: b :: rest => bytesLt a.name b.name && treeSorted (b :: rest)

/-! ## Content-addressed store (`DirRepo`)

The object directory is an association list from IDs to the encoded bytes of
the object file; `head` is the head pointer file (`none` when absent). Reads
recompute the digest of the stored bytes and fail with `corrupt` when it does
not match the requested ID, after decode errors, which surface first. -/

/-- The persistent state of a `DirRepo`. -/
structure RepoState where
  objs : List (ID × Bytes)
  head : Option ID
deriving DecidableEq, Repr

/-- The freshly initialized repository: no objects, no head. -/
def emptyRepo : RepoState := ⟨[], none⟩

/-- Look up an object file by ID. -/
def storeGet : List (ID × Bytes) → ID → Option Bytes
  | [], _ => none
  | (k, v) :: rest, id => if k = id then some v else storeGet rest id

/-- Write (or overwrite) an object file. -/
def storePut : List (ID × Bytes) → ID → Bytes → List (ID × Bytes)
  | [], id, bs => [(id, bs)]
  | (k, v) :: rest, id, bs =>
    if k = id then (id, bs) :: rest else (k, v) :: storePut rest id bs

/-- Error outcomes of repository and Sugar operations. `notFound` covers the
`NotFounder` errors and missing files (`os.IsNotExist`); `badDecode` the
codec's prefix/field errors; `corrupt` the ID verifier's mismatch error;
`corruptTree` the corrupt-tree errors of `Set` and the key iterator. -/
inductive RepoErr
  | notFound
  | badDecode
  | corrupt
  | emptyKey
  | corruptTree
deriving DecidableEq, Repr

instance {ε α : Type} [DecidableEq ε] [DecidableEq α] : DecidableEq (Except ε α) := fun a b =>
  match a, b with
  | .ok x, .ok y =>
    if h : x = y then isTrue (by rw [h]) else isFalse (by intro hc; cases hc; exact h rfl)
  | .error x, .error y =>
    if h : x = y then isTrue (by rw [h]) else isFalse (by intro hc; cases hc; exact h rfl)
  | .ok _, .error _ => isFalse (by intro hc; cases hc)
  | .error _, .ok _ => isFalse (by intro hc; cases hc)

/-- `IsNotFound` on the modelled errors. -/
def isNotFound : RepoErr → Bool
  | .notFound => true
  | _ => false

/-- `DirRepo.write`: stream the encoding through the ID writer; the ID is the
digest of the exact bytes persisted, and the file is stored under that ID. -/
def writeObj (st : RepoState) (enc : Bytes) : ID × RepoState :=
  (sha1 enc, { st with objs := storePut st.objs (sha1 enc) enc })

/-- `WriteBlob`. -/
def writeBlob (st : RepoState) (data : Bytes) : ID × RepoState :=
  writeObj st (encodeBlob data)

/-- `WriteTree`. -/
def writeTree (st : RepoState) (t : Tree) : ID × RepoState :=
  writeObj st (encodeTree t)

/-- `WriteCommit`. -/
def writeCommit (st : RepoState) (c : Commit) : ID × RepoState :=
  writeObj st (encodeCommit c)

/-- `WriteHead`. -/
def writeHead (st : RepoState) (id : ID) : RepoState :=
  { st with head := some id }

/-- `DirRepo.Blob`, drained to end of stream: decode errors surface first,
then the verifier compares the recomputed digest to the requested ID. -/
def readBlob (st : RepoState) (id : ID) : Except RepoErr Bytes :=
  match storeGet st.objs id with
  | none => .error .notFound
  | some bs =>
    match decodeBlob bs with
    | none => .error .badDecode
    | some data => if sha1 bs = id then .ok data else .error .corrupt

/-- `DirRepo.Tree` with read-time ID verification. -/
def readTree (st : RepoState) (id : ID) : Except RepoErr Tree :=
  match storeGet st.objs id with
  | none => .error .notFound
  | some bs =>
    match decodeTree bs with
    | none => .error .badDecode
    | some t => if sha1 bs = id then .ok t else .error .corrupt

/-- `DirRepo.Commit` with read-time ID verification. -/
def readCommit (st : RepoState) (id : ID) : Except RepoErr Commit :=
  match storeGet st.objs id with
  | none => .error .notFound
  | some bs =>
    match decodeCommit bs with
    | none => .error .badDecode
    | some c => if sha1 bs = id then .ok c else .error .corrupt

/-! ## Sugar: hierarchical keys over tree chains (`sugar.go`) -/

/-- The loop of `Sugar.Get`: look up each segment in the tree at its level,
fail `NotFound` when absent, descend into the entry's ID (the kind is not
inspected), and read the blob at the last segment. -/
def getLoop (st : RepoState) : ID → Bytes → List Bytes → Except RepoErr Bytes
  | tid, k, rest =>
    match readTree st tid with
    | .error e => .error e
    | .ok tree =>
      match treeGet tree k with
      | none => .error .notFound
      | some entry =>
        match rest with
        | [] => readBlob st entry.id
        | k2 :: rest2 => getLoop st entry.id k2 rest2

/-- `Sugar.Get` for a non-empty key (the Go loop panics on an empty key):
resolve Head to a commit and walk the key through its tree chain. -/
def sugarGet (st : RepoState) (key : List Bytes) : Except RepoErr Bytes :=
  match st.head with
  | none => .error .notFound
  | some hid =>
    match readCommit st hid with
    | .error e => .error e
    | .ok commit =>
      match key with
      | [] => .error .notFound
      | k :: rest => getLoop st commit.tree k rest

/-- The path the `Get` loop follows for the non-final segments: read the
tree at each level and follow the named entry's ID, without inspecting the
entry kind (as the loop does); used to state where a lookup stands. -/
def resolvePath (st : RepoState) : ID → List Bytes → Except RepoErr ID
  | tid, [] => .ok tid
  | tid, k :: ks =>
    match readTree st tid with
    | .error e => .error e
    | .ok t =>
      match treeGet t k with
      | none => .error .notFound
      | some e => resolvePath st e.id ks

/-- The `Get` loop as a function of the whole remaining key. -/
def getLoopK (st : RepoState) (tid : ID) : List Bytes → Except RepoErr Bytes
  | [] => .error .notFound
  | k :: ks => getLoop st tid k ks

/-- ID of the blob stored in the concrete one-key repository below
(SHA-1 of its encoding). -/
def c6BlobId : ID :=
  [95, 150, 112, 196, 166, 132, 151, 203, 255, 205, 142, 72, 76, 159, 189, 95, 70, 231, 6, 164]

/-- Root tree of the concrete repository: one blob entry under name "a". -/
def c6Tree : Tree := [⟨kindBlob, [97], c6BlobId⟩]

/-- ID of that tree (SHA-1 of its encoding). -/
def c6TreeId : ID :=
  [124, 29, 146, 190, 250, 150, 113, 233, 148, 188, 75, 101, 115, 54, 159, 165, 21, 239, 148, 85]

/-- Head commit of the concrete repository. -/
def c6Commit : Commit := ⟨c6TreeId, [], zeroTime, none⟩

/-- ID of that commit (SHA-1 of its encoding). -/
def c6CommitId : ID :=
  [201, 206, 117, 86, 159, 97, 207, 80, 36, 179, 1, 213, 217, 5, 232, 246, 22, 151, 35, 73]

/-- A concrete repository holding one blob value under the key ["a"], with
the commit as head: each object file is stored under the digest of its
encoding. -/
def c6State : RepoState :=
  ⟨[(c6CommitId, encodeCommit c6Commit), (c6TreeId, encodeTree c6Tree),
    (c6BlobId, encodeBlob [118])], some c6CommitId⟩

/-- ID of the blob written by `Set ["f"] "a"` (SHA-1 of its encoding). -/
def c5BlobId : ID :=
  [76, 24, 193, 13, 71, 154, 178, 147, 149, 212, 53, 110, 28, 83, 90, 186, 201, 47, 181, 232]

/-- The root tree after `Set ["f"] "a"`. -/
def c5Tree : Tree := [⟨kindBlob, [102], c5BlobId⟩]

/-- ID of that tree (SHA-1 of its encoding). -/
def c5TreeId : ID :=
  [230, 126, 186, 66, 144, 38, 74, 136, 159, 248, 40, 13, 48, 57, 252, 242, 91, 93, 195, 59]

/-- The commit created by `Set ["f"] "a"` on the empty repository. -/
def c5Commit : Commit := ⟨c5TreeId, [], zeroTime, none⟩

/-- ID of that commit (SHA-1 of its encoding). -/
def c5CommitId : ID :=
  [63, 157, 200, 190, 194, 89, 139, 38, 183, 66, 205, 16, 125, 180, 146, 186, 216, 28, 95, 8]

/-- The repository state after `Set ["f"] "a"` on the empty repository. -/
def c5St1 : RepoState :=
  ⟨[(c5BlobId, encodeBlob [97]), (c5TreeId, encodeTree c5Tree),
    (c5CommitId, encodeCommit c5Commit)], some c5CommitId⟩

/-- The descend phase of `Sugar.Set`: fetch the trees along the key, stopping
after the first level whose entry is absent or of Kind blob. -/
def collectTrees (st : RepoState) : ID → List Bytes → Except RepoErr (List Tree)
  | _, [] => .ok []
  | tid, k :: ks =>
    match readTree st tid with
    | .error e => .error e
    | .ok tree =>
      match treeGet tree k with
      | none => .ok [tree]
      | some entry =>
        if entry.kind = kindBlob then .ok [tree]
        else
          match collectTrees st entry.id ks with
          | .error e => .error e
          | .ok rest => .ok (tree :: rest)

/-- Outcome of the ascend phase: the new root tree ID, a no-op, or an error. -/
inductive AscendRes
  | root (id : Option ID)
  | fail (e : RepoErr)
deriving DecidableEq, Repr

/-- The ascend (merge) phase of `Sugar.Set`, iterating levels `i-1, …, 0`:
the candidate entry points to the blob at the leaf and to the previously
written tree above it; an unchanged candidate is a no-op at the leaf and a
corrupt tree strictly above it. Returns the result, the state after the
tree writes, and the number of `WriteTree` calls. -/
def ascendLoop (key : List Bytes) (trees : List Tree) (blobID : ID) :
    Nat → Option ID → RepoState → Nat → AscendRes × RepoState × Nat
  | 0, prev, st, tw => (.root prev, st, tw)
  | i + 1, prev, st, tw =>
    let name := key.getD i []
    let entry : Entry :=
      match prev with
      | none => { kind := kindBlob, name := name, id := blobID }
      | some p => { kind := kindTree, name := name, id := p }
    let tree := trees.getD i []
    let write :=
      fun (_ : Unit) =>
        match writeTree st (treeAdd tree entry) with
        | (newID, st2) => ascendLoop key trees blobID i (some newID) st2 (tw + 1)
    match treeGet tree name with
    | none => write ()
    | some existing =>
      if existing = entry then
        match prev with
        | none => (.root none, st, tw)
        | some _ => (.fail .corruptTree, st, tw)
      else write ()

/-- Result of `Sugar.Set`: the outcome (`some id` new head commit, `none`
no-op, or an error), the repository state afterwards, and the number of
blob, tree and commit writes performed. -/
structure SetResult where
  res : Except RepoErr (Option ID)
  st : RepoState
  blobW : Nat
  treeW : Nat
  commitW : Nat
deriving DecidableEq, Repr

/-- `Sugar.Set`: reject the empty key; resolve Head (absence is not an
error) and collect the existing trees; write the blob; run the ascend
phase; then write the commit and update Head unless it was a no-op. -/
def sugarSet (st : RepoState) (key : List Bytes) (blobData : Bytes) (c : Commit) :
    SetResult :=
  if key = [] then ⟨.error .emptyKey, st, 0, 0, 0⟩
  else
    let headRes : Except RepoErr (List Tree × Commit) :=
      match st.head with
      | none => .ok ([], c)
      | some hid =>
        match readCommit st hid with
        | .error e => .error e
        | .ok parent =>
          match collectTrees st parent.tree key with
          | .error e => .error e
          | .ok trees => .ok (trees, { c with parents := c.parents ++ [hid] })
    match headRes with
    | .error e => ⟨.error e, st, 0, 0, 0⟩
    | .ok (trees, c2) =>
      match writeBlob st blobData with
      | (blobID, st1) =>
        match ascendLoop key trees blobID key.length none st1 0 with
        | (.fail e, st2, tw) => ⟨.error e, st2, 1, tw, 0⟩
        | (.root none, st2, tw) => ⟨.ok none, st2, 1, tw, 0⟩
        | (.root (some rootID), st2, tw) =>
          match writeCommit st2 { c2 with tree := rootID } with
          | (cid, st3) => ⟨.ok (some cid), writeHead st3 cid, 1, tw, 1⟩

/-! ## Key enumeration (the iterator-bearing Sugar variant) -/

/-- The state of `keyIterator`: the accumulated key path and the stack of
remaining-entry frames. -/
structure KeyIter where
  key : List Bytes
  stack : List Tree
deriving DecidableEq, Repr

/-- The prefix-resolution loop of `sugar.Keys`: `tree` holds the tree fetched
in the current iteration (the parent of the entry being resolved), and the
loop fails `NotFound` for an absent or non-tree entry. -/
def sugarKeysLoop (st : RepoState) : ID → Tree → List Bytes → Except RepoErr Tree
  | _, tree, [] => .ok tree
  | tid, _, name :: rest =>
    match readTree st tid with
    | .error e => .error e
    | .ok tree2 =>
      match treeGet tree2 name with
      | none => .error .notFound
      | some entry =>
        if entry.kind ≠ kindTree then .error .notFound
        else sugarKeysLoop st entry.id tree2 rest

/-- `sugar.Keys`: resolve the prefix, then start the iterator with the tree
variable left by the loop (the nil tree when the prefix is empty) as the
single stack frame and the prefix as the accumulated key. -/
def sugarKeys (st : RepoState) (treeID : ID) (pre : List Bytes) :
    Except RepoErr KeyIter :=
  match sugarKeysLoop st treeID [] pre with
  | .error e => .error e
  | .ok tree => .ok { key := pre, stack := [tree] }

/-- One outcome of `keyIterator.Next`: a `(key, id)` pair with the advanced
iterator, end of iteration (`io.EOF`), an error, or fuel exhaustion of the
model (the Go loop spins until one of the first three). -/
inductive NextRes
  | pair (key : List Bytes) (id : ID) (it : KeyIter)
  | eof
  | fail (e : RepoErr)
  | fuelOut
deriving DecidableEq, Repr

/-- `keyIterator.Next`: depth-first walk driven by an explicit stack; an
empty top frame pops and advances the parent, a tree entry descends, a blob
entry is yielded, and any other kind is a corrupt tree. -/
def keyIterNext (st : RepoState) : Nat → KeyIter → NextRes
  | 0, _ => .fuelOut
  | f + 1, it =>
    match it.stack.getLast? with
    | none => .eof
    | some tree =>
      match tree with
      | [] =>
        let stack2 := it.stack.dropLast
        if stack2 = [] then keyIterNext st f { it with stack := stack2 }
        else
          keyIterNext st f
            { key := it.key.dropLast,
              stack := stack2.dropLast ++ [(stack2.getLast?.getD []).drop 1] }
      | entry :: restEntries =>
        if entry.kind = kindTree then
          match readTree st entry.id with
          | .error e => .fail e
          | .ok t2 =>
            keyIterNext st f { key := it.key ++ [entry.name], stack := it.stack ++ [t2] }
        else if entry.kind = kindBlob then
          .pair (it.key ++ [entry.name]) entry.id
            { it with stack := it.stack.dropLast ++ [restEntries] }
        else .fail .corruptTree

/-! ## Validity predicates and decode-side normalization -/

/-- Non-strict order used while sorting: `b.name` is not below `a.name`. -/
def entryLe (a b : Entry) : Prop := bytesLt b.name a.name = false

/-- A tree entry as constructible through the API: a blob or tree kind, ID
bytes in range, and a name whose length fits `int64`. -/
def ValidEntry (e : Entry) : Prop :=
  (e.kind = kindBlob ∨ e.kind = kindTree) ∧ (∀ b ∈ e.id, b < 256) ∧
    e.name.length ≤ 9223372036854775807

instance : DecidablePred ValidEntry := fun e => by
  unfold ValidEntry
  infer_instance

/-- A valid tree: valid entries with pairwise distinct names. -/
def ValidTree (t : Tree) : Prop :=
  (∀ e ∈ t, ValidEntry e) ∧ t.Pairwise (fun a b => a.name ≠ b.name)

instance : DecidablePred ValidTree := fun t => by
  unfold ValidTree
  infer_instance

/-- Decoding normalization of the message: zero length decodes to nil. -/
def normMsg (m : Option Bytes) : Option Bytes :=
  if m.getD [] = [] then none else m

/-- The decode-side normalization of a commit: zero-instant time resets to
the zero time, an empty message to nil; all other fields round-trip. -/
def normCommit (c : Commit) : Commit :=
  { c with time := normTime c.time, message := normMsg c.message }

/-- A commit as constructible through the API: ID bytes in range and the
time in `int64` range. -/
def ValidCommit (c : Commit) : Prop :=
  (∀ b ∈ c.tree, b < 256) ∧ (∀ p ∈ c.parents, ∀ b ∈ p, b < 256) ∧
    -9223372036854775808 ≤ c.time.unix ∧ c.time.unix ≤ 9223372036854775807 ∧
    -9223372036854775808 ≤ c.time.offset ∧ c.time.offset ≤ 9223372036854775807

instance : DecidablePred ValidCommit := fun c => by
  unfold ValidCommit
  infer_instance

/-! ## Lemmas: hex and decimal round trips -/

lemma fromHexChar_hexDigitChar (n : Nat) (h : n < 16) :
    fromHexChar (hexDigitChar n) = some n := by
  unfold fromHexChar hexDigitChar
  by_cases h10 : n < 10
  · rw [if_pos h10, if_pos (by omega)]
    congr 1
    omega
  · rw [if_neg h10, if_neg (by omega), if_pos (by omega)]
    congr 1
    omega

lemma hexDigitChar_ne_space (n : Nat) : hexDigitChar n ≠ 32 := by
  unfold hexDigitChar; split <;> omega

lemma hexDigitChar_ne_newline (n : Nat) : hexDigitChar n ≠ 10 := by
  unfold hexDigitChar; split <;> omega

lemma hexEncode_not_mem_space (bs : Bytes) : 32 ∉ hexEncode bs := by
  induction bs with
  | nil => simp [hexEncode]
  | cons b bs ih =>
    simp only [hexEncode, List.mem_cons, not_or]
    exact ⟨fun h => hexDigitChar_ne_space _ h.symm, fun h => hexDigitChar_ne_space _ h.symm, ih⟩

lemma hexEncode_not_mem_newline (bs : Bytes) : 10 ∉ hexEncode bs := by
  induction bs with
  | nil => simp [hexEncode]
  | cons b bs ih =>
    simp only [hexEncode, List.mem_cons, not_or]
    exact ⟨fun h => hexDigitChar_ne_newline _ h.symm, fun h => hexDigitChar_ne_newline _ h.symm, ih⟩

lemma hexDecode_hexEncode (bs : Bytes) (h : ∀ b ∈ bs, b < 256) :
    hexDecode (hexEncode bs) = some bs := by
  induction bs with
  | nil => rfl
  | cons b bs ih =>
    have hb : b < 256 := h b (by simp)
    have e1 := fromHexChar_hexDigitChar (b / 16) (by omega)
    have e2 := fromHexChar_hexDigitChar (b % 16) (by omega)
    have hbs := ih (fun x hx => h x (by simp [hx]))
    simp only [hexEncode, hexDecode, e1, e2, hbs]
    have hb2 : b / 16 * 16 + b % 16 = b := by omega
    rw [hb2]

lemma parseID_hexEncode (bs : Bytes) (h : ∀ b ∈ bs, b < 256) :
    parseID (hexEncode bs) = some bs := by
  unfold parseID
  rcases bs with _ | ⟨b, bs⟩
  · rfl
  · rw [if_neg (by simp [hexEncode]), hexDecode_hexEncode _ h]

lemma foldr_eq_ofDigits (l : List Nat) :
    l.foldr (fun d acc => acc * 10 + d) 0 = Nat.ofDigits 10 l := by
  induction l with
  | nil => simp [Nat.ofDigits]
  | cons d l ih => simp [Nat.ofDigits_cons, ih]; ring

lemma natDecAux_eq_digits :
    ∀ (f n : Nat), 0 < n → n ≤ f →
      natDecAux f n = ((Nat.digits 10 n).map (fun d => 48 + d)).reverse := by
  intro f
  induction f with
  | zero =>
    intro n hn hf
    omega
  | succ f ih =>
    intro n hn hf
    obtain ⟨m, rfl⟩ : ∃ m, n = m + 1 := ⟨n - 1, by omega⟩
    show natDecAux f ((m + 1) / 10) ++ [48 + (m + 1) % 10] = _
    rw [Nat.digits_def' (by norm_num : (1 : Nat) < 10) hn]
    simp only [List.map_cons, List.reverse_cons]
    by_cases hq : (m + 1) / 10 = 0
    · rw [hq]
      simp [natDecAux]
      rcases f with _ | f2 <;> rfl
    · rw [ih ((m + 1) / 10) (by omega) (by omega)]

lemma natDec_eq_digits (n : Nat) :
    natDec n = if n = 0 then [48] else ((Nat.digits 10 n).map (fun d => 48 + d)).reverse := by
  unfold natDec
  by_cases h0 : n = 0
  · rw [if_pos h0, if_pos h0]
  · rw [if_neg h0, if_neg h0, natDecAux_eq_digits n n (by omega) (le_refl n)]

lemma decValue_natDec (n : Nat) : decValue (natDec n) = n := by
  rw [natDec_eq_digits]
  unfold decValue
  by_cases h0 : n = 0
  · simp [h0]
  · rw [if_neg h0, List.foldl_reverse, List.foldr_map]
    have heq : ∀ l : List Nat, l.foldr (fun x y => y * 10 + (48 + x - 48)) 0
        = l.foldr (fun x y => y * 10 + x) 0 := by
      intro l
      induction l with
      | nil => rfl
      | cons d l ih2 =>
        simp only [List.foldr_cons, ih2]
        omega
    rw [heq, foldr_eq_ofDigits, Nat.ofDigits_digits]

lemma natDec_all_digit (n : Nat) : ∀ c ∈ natDec n, isDigit c = true := by
  rw [natDec_eq_digits]
  unfold isDigit
  by_cases h0 : n = 0
  · simp [h0]
  · rw [if_neg h0]
    intro c hc
    simp only [List.mem_reverse, List.mem_map] at hc
    obtain ⟨d, hd, rfl⟩ := hc
    have : d < 10 := Nat.digits_lt_base (by norm_num) hd
    simp
    omega

lemma natDec_ne_nil (n : Nat) : natDec n ≠ [] := by
  rw [natDec_eq_digits]
  by_cases h0 : n = 0
  · simp [h0]
  · rw [if_neg h0]
    rcases hd : Nat.digits 10 n with _ | ⟨d, l⟩
    · exact absurd hd (Nat.digits_ne_nil_iff_ne_zero.mpr h0)
    · simp

lemma parseDigits_natDec (n : Nat) : parseDigits (natDec n) = some n := by
  unfold parseDigits
  rw [if_pos ⟨natDec_ne_nil n, by rw [List.all_eq_true]; exact natDec_all_digit n⟩,
    decValue_natDec]

lemma digit_ne_space {c : Nat} (h : isDigit c = true) : c ≠ 32 := by
  unfold isDigit at h
  simp at h
  omega

lemma digit_ne_newline {c : Nat} (h : isDigit c = true) : c ≠ 10 := by
  unfold isDigit at h
  simp at h
  omega

lemma natDec_not_mem_space (n : Nat) : 32 ∉ natDec n := by
  intro h
  exact digit_ne_space (natDec_all_digit n 32 h) rfl

lemma natDec_not_mem_newline (n : Nat) : 10 ∉ natDec n := by
  intro h
  exact digit_ne_newline (natDec_all_digit n 10 h) rfl

lemma natDec_head_digit (n : Nat) :
    ∀ c, (natDec n).headI = c → isDigit c = true := by
  intro c hc
  rcases hh : natDec n with _ | ⟨d, rest⟩
  · exact absurd hh (natDec_ne_nil n)
  · rw [hh] at hc
    simp at hc
    subst hc
    exact natDec_all_digit n d (by rw [hh]; simp)

lemma parseInt_natDec (n : Nat) (h : n ≤ 9223372036854775807) :
    parseInt (natDec n) = some (n : Int) := by
  rcases hh : natDec n with _ | ⟨d, rest⟩
  · exact absurd hh (natDec_ne_nil n)
  · have hd : isDigit d = true := natDec_all_digit n d (by rw [hh]; simp)
    have hd43 : ¬(d = 43) := by unfold isDigit at hd; simp at hd; omega
    have hd45 : ¬(d = 45) := by unfold isDigit at hd; simp at hd; omega
    have hpd : parseDigits (d :: rest) = some n := by
      rw [← hh]
      exact parseDigits_natDec n
    simp only [parseInt, if_neg hd43, if_neg hd45, hpd, Option.some_bind]
    rw [if_pos h]

lemma parseInt_intDec (i : Int) (hlo : -9223372036854775808 ≤ i)
    (hhi : i ≤ 9223372036854775807) : parseInt (intDec i) = some i := by
  unfold intDec
  by_cases hneg : i < 0
  · rw [if_pos hneg]
    simp only [parseInt, if_neg (show ¬((45 : Nat) = 43) by norm_num),
      if_pos rfl, parseDigits_natDec, Option.some_bind]
    rw [if_pos (show i.natAbs ≤ 9223372036854775808 by omega)]
    have habs : -((i.natAbs : Nat) : Int) = i := by omega
    rw [habs]
    simp
  · rw [if_neg hneg, parseInt_natDec _ (by omega)]
    have habs : (((i.natAbs : Nat)) : Int) = i := by omega
    rw [habs]

lemma parseInt_intDecSigned (i : Int) (hlo : -9223372036854775808 ≤ i)
    (hhi : i ≤ 9223372036854775807) : parseInt (intDecSigned i) = some i := by
  unfold intDecSigned
  by_cases hneg : i < 0
  · rw [if_pos hneg]
    simp only [parseInt, if_neg (show ¬((45 : Nat) = 43) by norm_num),
      if_pos rfl, parseDigits_natDec, Option.some_bind]
    rw [if_pos (show i.natAbs ≤ 9223372036854775808 by omega)]
    have habs : -((i.natAbs : Nat) : Int) = i := by omega
    rw [habs]
    simp
  · rw [if_neg hneg]
    simp only [parseInt, if_pos rfl, parseDigits_natDec, Option.some_bind]
    rw [if_pos (show i.natAbs ≤ 9223372036854775807 by omega)]
    have habs : (((i.natAbs : Nat)) : Int) = i := by omega
    rw [habs]
    simp

lemma intDec_no_space (i : Int) : 32 ∉ intDec i := by
  unfold intDec
  split
  · simp only [List.mem_cons, not_or]
    exact ⟨by norm_num, natDec_not_mem_space _⟩
  · exact natDec_not_mem_space _

lemma intDec_no_newline (i : Int) : 10 ∉ intDec i := by
  unfold intDec
  split
  · simp only [List.mem_cons, not_or]
    exact ⟨by norm_num, natDec_not_mem_newline _⟩
  · exact natDec_not_mem_newline _

lemma intDecSigned_no_space (i : Int) : 32 ∉ intDecSigned i := by
  unfold intDecSigned
  split <;> simp only [List.mem_cons, not_or] <;>
    exact ⟨by norm_num, natDec_not_mem_space _⟩

lemma intDecSigned_no_newline (i : Int) : 10 ∉ intDecSigned i := by
  unfold intDecSigned
  split <;> simp only [List.mem_cons, not_or] <;>
    exact ⟨by norm_num, natDec_not_mem_newline _⟩

/-! ## Lemmas: stream reading -/

lemma readUntil_append (sep : Nat) (xs rest : Bytes) (h : sep ∉ xs) :
    readUntil sep (xs ++ sep :: rest) = some (xs ++ [sep], rest) := by
  induction xs with
  | nil => simp [readUntil]
  | cons x xs ih =>
    have hx : ¬(x = sep) := fun hxe => h (by simp [hxe])
    have ih2 := ih (fun hm => h (by simp [hm]))
    simp only [List.cons_append, readUntil, List.append_eq, if_neg hx, ih2]

lemma dropLast_concat_eq (xs : Bytes) (a : Nat) : (xs ++ [a]).dropLast = xs := by
  simp

/-! ## Lemmas: byte-wise lexicographic order -/

lemma bytesLt_irrefl (a : Bytes) : bytesLt a a = false := by
  induction a with
  | nil => rfl
  | cons x xs ih => simp [bytesLt, ih]

lemma bytesLt_trans {a b c : Bytes} (h1 : bytesLt a b = true) (h2 : bytesLt b c = true) :
    bytesLt a c = true := by
  induction a generalizing b c with
  | nil =>
    cases c with
    | nil =>
      cases b with
      | nil => exact h1
      | cons y ys => simp [bytesLt] at h2
    | cons z zs => simp [bytesLt]
  | cons x xs ih =>
    cases b with
    | nil => simp [bytesLt] at h1
    | cons y ys =>
      cases c with
      | nil => simp [bytesLt] at h2
      | cons z zs =>
        simp only [bytesLt] at h1 h2 ⊢
        rcases Nat.lt_trichotomy x y with hxy | hxy | hxy
        · rcases Nat.lt_trichotomy y z with hyz | hyz | hyz
          · rw [if_pos (by omega)]
          · subst hyz
            rw [if_pos hxy]
          · rw [if_neg (by omega), if_pos hyz] at h2
            exact absurd h2 (by simp)
        · subst hxy
          rw [if_neg (by omega), if_neg (by omega)] at h1
          rcases Nat.lt_trichotomy x z with hxz | hxz | hxz
          · rw [if_pos hxz]
          · subst hxz
            rw [if_neg (by omega), if_neg (by omega)] at h2
            rw [if_neg (by omega), if_neg (by omega)]
            exact ih h1 h2
          · rw [if_neg (by omega), if_pos (by omega)] at h2
            exact absurd h2 (by simp)
        · rw [if_neg (by omega), if_pos (by omega)] at h1
          exact absurd h1 (by simp)

lemma bytesLt_total {a b : Bytes} (h1 : bytesLt a b = false) (h2 : bytesLt b a = false) :
    a = b := by
  induction a generalizing b with
  | nil =>
    cases b with
    | nil => rfl
    | cons y ys => simp [bytesLt] at h1
  | cons x xs ih =>
    cases b with
    | nil => simp [bytesLt] at h2
    | cons y ys =>
      simp only [bytesLt] at h1 h2
      rcases Nat.lt_trichotomy x y with hxy | hxy | hxy
      · rw [if_pos hxy] at h1
        exact absurd h1 (by simp)
      · subst hxy
        rw [if_neg (by omega), if_neg (by omega)] at h1
        rw [if_neg (by omega), if_neg (by omega)] at h2
        rw [ih h1 h2]
      · rw [if_pos hxy] at h2
        exact absurd h2 (by simp)

/-! ## Lemmas: tree sorting -/

lemma insertEntry_perm (e : Entry) (xs : Tree) : (insertEntry e xs).Perm (e :: xs) := by
  induction xs with
  | nil => exact List.Perm.refl _
  | cons x xs ih =>
    unfold insertEntry
    split
    · exact ((ih.cons x).trans (List.Perm.swap e x xs))
    · exact List.Perm.refl _

lemma sortTree_perm (t : Tree) : (sortTree t).Perm t := by
  induction t with
  | nil => exact List.Perm.refl _
  | cons e es ih => exact (insertEntry_perm e (sortTree es)).trans (ih.cons e)

lemma insertEntry_pairwise (e : Entry) (xs : Tree) (h : xs.Pairwise entryLe) :
    (insertEntry e xs).Pairwise entryLe := by
  induction xs with
  | nil => simp [insertEntry, h]
  | cons x xs ih =>
    rcases List.pairwise_cons.mp h with ⟨hx, hxs⟩
    unfold insertEntry
    split
    · rename_i hlt
      refine List.pairwise_cons.mpr ⟨?_, ih hxs⟩
      intro y hy
      rcases List.mem_cons.mp ((insertEntry_perm e xs).mem_iff.mp hy) with hey | hyx
      · subst hey
        unfold entryLe
        by_cases hne : bytesLt y.name x.name = true
        · exact absurd (bytesLt_trans hne hlt) (by simp [bytesLt_irrefl])
        · simp at hne
          exact hne
      · exact hx y hyx
    · rename_i hnlt
      refine List.pairwise_cons.mpr ⟨?_, h⟩
      intro y hy
      rcases List.mem_cons.mp hy with hyx | hyxs
      · subst hyx
        unfold entryLe
        simp at hnlt
        exact hnlt
      · have hxy2 : entryLe x y := hx y hyxs
        unfold entryLe at hxy2 ⊢
        simp only [Bool.not_eq_true] at hnlt
        by_cases he : bytesLt y.name e.name = true
        · by_cases hex : bytesLt e.name x.name = true
          · have : bytesLt y.name x.name = true := bytesLt_trans he hex
            simp [this] at hxy2
          · simp only [Bool.not_eq_true] at hex
            have hexq : e.name = x.name := bytesLt_total hex hnlt
            rw [hexq] at he
            simp [he] at hxy2
        · simp at he
          exact he

lemma sortTree_pairwise (t : Tree) : (sortTree t).Pairwise entryLe := by
  induction t with
  | nil => simp [sortTree]
  | cons e es ih => exact insertEntry_pairwise e (sortTree es) ih

/-- With unique names, the sorted tree is strictly ascending by name. -/
lemma sortTree_pairwise_strict (t : Tree)
    (h : t.Pairwise (fun a b => a.name ≠ b.name)) :
    (sortTree t).Pairwise (fun a b => bytesLt a.name b.name = true) := by
  have hperm := sortTree_perm t
  have hne : (sortTree t).Pairwise (fun a b => a.name ≠ b.name) :=
    (List.Perm.pairwise_iff (fun hab heq => hab heq.symm) hperm.symm).mp h
  refine ((sortTree_pairwise t).and hne).imp ?_
  intro a b hab
  rcases hab with ⟨hle, hnab⟩
  unfold entryLe at hle
  by_cases hba : bytesLt a.name b.name = true
  · exact hba
  · simp at hba
    exact absurd (bytesLt_total hba hle) hnab

/-! ## Lemmas: tree codec round trip -/

lemma encodeEntry_ne_nil (e : Entry) : encodeEntry e ≠ [] := by
  unfold encodeEntry
  rcases e.kind with _ | ⟨k, ks⟩ <;> simp

lemma decodeTreeLoop_step (f : Nat) (s : Bytes) (acc : Tree) (hne : s ≠ []) :
    decodeTreeLoop (f + 1) s acc =
      (match readUntil 32 s with
      | none => none
      | some (kindTok, r1) =>
        match readUntil 32 r1 with
        | none => none
        | some (idTok, r2) =>
          match parseID idTok.dropLast with
          | none => none
          | some id =>
            match readUntil 32 r2 with
            | none => none
            | some (lenTok, r3) =>
              match parseInt lenTok.dropLast with
              | none => none
              | some len =>
                let nm := r3.take (len + 1).toNat
                if nm = [] then none
                else
                  decodeTreeLoop f (r3.drop (len + 1).toNat)
                    (acc ++ [{ kind := kindTok.dropLast, name := nm.dropLast, id := id }])) := by
  rcases s with _ | ⟨b, bs⟩
  · exact absurd rfl hne
  · rfl

lemma decodeTreeLoop_encodeEntry (f : Nat) (e : Entry) (rest : Bytes) (acc : Tree)
    (he : ValidEntry e) :
    decodeTreeLoop (f + 1) (encodeEntry e ++ rest) acc
      = decodeTreeLoop f rest (acc ++ [e]) := by
  obtain ⟨hkind, hid, hlen⟩ := he
  have hknosp : 32 ∉ e.kind := by
    rcases hkind with h | h <;> rw [h] <;> decide
  have hshape : encodeEntry e ++ rest
      = e.kind ++ 32 :: (hexEncode e.id
          ++ 32 :: (natDec e.name.length ++ 32 :: (e.name ++ 10 :: rest))) := by
    simp [encodeEntry]
  have h1 := readUntil_append 32 e.kind
    (hexEncode e.id ++ 32 :: (natDec e.name.length ++ 32 :: (e.name ++ 10 :: rest))) hknosp
  have h2 := readUntil_append 32 (hexEncode e.id)
    (natDec e.name.length ++ 32 :: (e.name ++ 10 :: rest)) (hexEncode_not_mem_space _)
  have h3 := readUntil_append 32 (natDec e.name.length)
    (e.name ++ 10 :: rest) (natDec_not_mem_space _)
  have hidp : parseID (hexEncode e.id) = some e.id := parseID_hexEncode e.id hid
  have hip : parseInt (natDec e.name.length) = some (e.name.length : Int) :=
    parseInt_natDec _ hlen
  have htn : (((e.name.length : Nat) : Int) + 1).toNat = e.name.length + 1 := by omega
  have htake : (e.name ++ 10 :: rest).take (e.name.length + 1) = e.name ++ [10] := by
    rw [List.take_append_eq_append_take, List.take_of_length_le (by omega)]
    congr 1
    simp
  have hdrop : (e.name ++ 10 :: rest).drop (e.name.length + 1) = rest := by
    rw [List.drop_append_eq_append_drop, List.drop_of_length_le (by omega)]
    simp
  have hne2 : encodeEntry e ++ rest ≠ [] := by
    intro hcon
    exact encodeEntry_ne_nil e (List.append_eq_nil.mp hcon).1
  rw [decodeTreeLoop_step f _ acc hne2, hshape]
  simp only [h1, h2, h3, List.dropLast_concat, hidp, hip, htn, htake, hdrop]
  rw [if_neg (by simp)]

lemma decodeTreeLoop_encodeEntries (es : Tree) :
    ∀ (fuel : Nat) (acc : Tree), (∀ e ∈ es, ValidEntry e) →
      (encodeEntries es).length ≤ fuel →
      decodeTreeLoop fuel (encodeEntries es) acc = some (acc ++ es) := by
  induction es with
  | nil =>
    intro fuel acc _ _
    simp [encodeEntries, decodeTreeLoop]
  | cons e es ih =>
    intro fuel acc hval hfuel
    have hlen1 : 1 ≤ (encodeEntry e).length := by
      rcases hh : encodeEntry e with _ | ⟨b, bs⟩
      · exact absurd hh (encodeEntry_ne_nil e)
      · simp
    rw [encodeEntries, List.length_append] at hfuel
    obtain ⟨f, rfl⟩ : ∃ f, fuel = f + 1 := ⟨fuel - 1, by omega⟩
    rw [encodeEntries, decodeTreeLoop_encodeEntry f e _ acc (hval e (by simp))]
    rw [ih f (acc ++ [e]) (fun x hx => hval x (by simp [hx])) (by omega)]
    simp

/-- `DecodeTree ∘ EncodeTree` produces the name-sorted entry list. -/
lemma decodeTree_encodeTree (t : Tree) (h : ∀ e ∈ t, ValidEntry e) :
    decodeTree (encodeTree t) = some (sortTree t) := by
  unfold decodeTree encodeTree
  have h5 : (treeHeader ++ encodeEntries (sortTree t)).take 5 = treeHeader := by
    have h0 := List.take_left treeHeader (encodeEntries (sortTree t))
    simp only [treeHeader] at h0 ⊢
    exact h0
  have hdrop : (treeHeader ++ encodeEntries (sortTree t)).drop 5 = encodeEntries (sortTree t) := by
    have h0 := List.drop_left treeHeader (encodeEntries (sortTree t))
    simp only [treeHeader] at h0 ⊢
    exact h0
  rw [if_pos h5, hdrop]
  have hval : ∀ e ∈ sortTree t, ValidEntry e := fun e he =>
    h e ((sortTree_perm t).mem_iff.mp he)
  rw [decodeTreeLoop_encodeEntries (sortTree t) _ [] hval (le_refl _)]
  simp

/-! ## Lemmas: commit codec round trip -/

lemma splitOnByte_no_sep (sep : Nat) (ys : Bytes) (h : sep ∉ ys) :
    splitOnByte sep ys = [ys] := by
  induction ys with
  | nil => rfl
  | cons y ys ih =>
    have hy : ¬(y = sep) := fun hc => h (by simp [hc])
    have ih2 := ih (fun hm => h (by simp [hm]))
    simp only [splitOnByte, if_neg hy, ih2]

lemma splitOnByte_append (sep : Nat) (xs ys : Bytes) (h : sep ∉ xs) :
    splitOnByte sep (xs ++ sep :: ys) = xs :: splitOnByte sep ys := by
  induction xs with
  | nil => simp [splitOnByte]
  | cons x xs ih =>
    have hx : ¬(x = sep) := fun hc => h (by simp [hc])
    have ih2 := ih (fun hm => h (by simp [hm]))
    simp only [List.cons_append, splitOnByte, List.append_eq, if_neg hx, ih2]

lemma encodeParents_length_ge (ps : List ID) : ps.length ≤ (encodeParents ps).length := by
  induction ps with
  | nil => simp [encodeParents]
  | cons p ps ih => simp [encodeParents, fieldParent]; omega

lemma decodeCommitFields_step (f : Nat) (s : Bytes) (c : Commit) :
    decodeCommitFields (f + 1) s c =
      (match readUntil 32 s with
      | none => none
      | some (fieldTok, r1) =>
        match readUntil 10 r1 with
        | none => none
        | some (valTok, r2) =>
          let fld := fieldTok.dropLast
          let val := valTok.dropLast
          if fld = kindTree then
            match parseID val with
            | none => none
            | some id => decodeCommitFields f r2 { c with tree := id }
          else if fld = fieldParent then
            match parseID val with
            | none => none
            | some id => decodeCommitFields f r2 { c with parents := c.parents ++ [id] }
          else if fld = fieldTime then
            match applyTimeParts c (splitOnByte 32 val) 0 with
            | none => none
            | some c2 => some ({ c2 with time := normTime c2.time }, r2)
          else none) := rfl

/-- Reading the time field line finishes the field loop. -/
lemma decodeCommitFields_time (f : Nat) (u o : Int) (msg : Bytes) (c : Commit)
    (hu1 : -9223372036854775808 ≤ u) (hu2 : u ≤ 9223372036854775807)
    (ho1 : -9223372036854775808 ≤ o) (ho2 : o ≤ 9223372036854775807) :
    decodeCommitFields (f + 1)
      (fieldTime ++ 32 :: intDec u ++ 32 :: intDecSigned o ++ [10] ++ 10 :: msg) c
      = some ({ c with time := normTime ⟨u, o⟩ }, 10 :: msg) := by
  have hshape : fieldTime ++ 32 :: intDec u ++ 32 :: intDecSigned o ++ [10] ++ 10 :: msg
      = fieldTime ++ 32 :: ((intDec u ++ 32 :: intDecSigned o) ++ 10 :: (10 :: msg)) := by
    simp
  have h1 := readUntil_append 32 fieldTime
    ((intDec u ++ 32 :: intDecSigned o) ++ 10 :: (10 :: msg)) (by decide)
  have hnl : 10 ∉ intDec u ++ 32 :: intDecSigned o := by
    intro hm
    rcases List.mem_append.mp hm with hm | hm
    · exact intDec_no_newline u hm
    · rcases List.mem_cons.mp hm with hm | hm
      · omega
      · exact intDecSigned_no_newline o hm
  have h2 := readUntil_append 10 (intDec u ++ 32 :: intDecSigned o) (10 :: msg) hnl
  have hsplit : splitOnByte 32 (intDec u ++ 32 :: intDecSigned o)
      = [intDec u, intDecSigned o] := by
    rw [splitOnByte_append 32 _ _ (intDec_no_space u),
      splitOnByte_no_sep 32 _ (intDecSigned_no_space o)]
  rw [hshape]
  simp only [decodeCommitFields, h1, h2, List.dropLast_concat]
  rw [if_pos trivial, hsplit]
  simp only [applyTimeParts, parseInt_intDec u hu1 hu2, parseInt_intDecSigned o ho1 ho2]
  rfl

/-- Parent field lines accumulate parents in order. -/
lemma decodeCommitFields_parents (ps : List ID) :
    ∀ (fuel : Nat) (c : Commit) (tl : Bytes) (res : Commit × Bytes),
      (∀ p ∈ ps, ∀ b ∈ p, b < 256) →
      (∀ f2 : Nat, decodeCommitFields (f2 + 1) tl { c with parents := c.parents ++ ps } = some res) →
      (encodeParents ps ++ tl).length ≤ fuel →
      decodeCommitFields (fuel + 1) (encodeParents ps ++ tl) c = some res := by
  induction ps with
  | nil =>
    intro fuel c tl res _ htl _
    simp only [encodeParents, List.nil_append]
    have := htl fuel
    simpa using this
  | cons p ps ih =>
    intro fuel c tl res hval htl hfuel
    have hshape : encodeParents (p :: ps) ++ tl
        = fieldParent ++ 32 :: (hexEncode p ++ 10 :: (encodeParents ps ++ tl)) := by
      simp [encodeParents]
    have h1 := readUntil_append 32 fieldParent
      (hexEncode p ++ 10 :: (encodeParents ps ++ tl)) (by decide)
    have h2 := readUntil_append 10 (hexEncode p) (encodeParents ps ++ tl)
      (hexEncode_not_mem_newline p)
    have hp : parseID (hexEncode p) = some p := parseID_hexEncode p (hval p (by simp))
    have hlen : (encodeParents ps ++ tl).length ≤ fuel - 1 := by
      rw [hshape, List.length_append, List.length_cons, List.length_append,
        List.length_cons] at hfuel
      simp only [fieldParent, List.length_cons] at hfuel
      rw [List.length_append] at hfuel ⊢
      omega
    obtain ⟨f, rfl⟩ : ∃ f, fuel = f + 1 := by
      refine ⟨fuel - 1, ?_⟩
      have : 1 ≤ fuel := by
        rw [hshape] at hfuel
        simp [fieldParent] at hfuel
        omega
      omega
    rw [hshape]
    simp only [decodeCommitFields, h1, h2, List.dropLast_concat]
    rw [if_pos trivial, hp]
    have hacc : ({ c with parents := c.parents ++ [p] } : Commit).parents ++ ps
        = c.parents ++ p :: ps := by
      simp
    have := ih f { c with parents := c.parents ++ [p] } tl res
      (fun q hq => hval q (by simp [hq]))
      (by
        intro f2
        rw [show ({ c with parents := c.parents ++ [p] } : Commit).parents ++ ps
            = c.parents ++ p :: ps from by simp]
        exact htl f2)
      (by omega)
    exact this

/-- `DecodeCommit ∘ EncodeCommit` is the identity up to zero-time and
empty-message normalization. -/
lemma decodeCommit_encodeCommit (c : Commit) (h : ValidCommit c) :
    decodeCommit (encodeCommit c) = some (normCommit c) := by
  obtain ⟨htr, hps, hu1, hu2, ho1, ho2⟩ := h
  obtain ⟨tl, htl⟩ : ∃ tl : Bytes,
      fieldTime ++ 32 :: intDec c.time.unix ++ 32 :: intDecSigned c.time.offset
        ++ [10] ++ 10 :: c.message.getD [] = tl := ⟨_, rfl⟩
  obtain ⟨body, hbody⟩ : ∃ body : Bytes,
      kindTree ++ 32 :: (hexEncode c.tree ++ 10 :: (encodeParents c.parents ++ tl)) = body :=
    ⟨_, rfl⟩
  have hshape : encodeCommit c = commitHeader ++ body := by
    rw [← hbody, ← htl]
    simp [encodeCommit]
  unfold decodeCommit
  rw [hshape]
  have h7take : (commitHeader ++ body).take 7 = commitHeader := by
    have h0 := List.take_left commitHeader body
    simp only [commitHeader, List.length_cons] at h0 ⊢
    exact h0
  have h7drop : (commitHeader ++ body).drop 7 = body := by
    have h0 := List.drop_left commitHeader body
    simp only [commitHeader, List.length_cons] at h0 ⊢
    exact h0
  rw [if_pos h7take, h7drop]
  have hblen : (encodeParents c.parents ++ tl).length + 6 ≤ body.length := by
    rw [← hbody]
    simp [kindTree]
  obtain ⟨f, hf⟩ : ∃ f, body.length = f + 1 := ⟨body.length - 1, by omega⟩
  rw [hf, ← hbody]
  have h1 := readUntil_append 32 kindTree
    (hexEncode c.tree ++ 10 :: (encodeParents c.parents ++ tl)) (by decide)
  have h2 := readUntil_append 10 (hexEncode c.tree) (encodeParents c.parents ++ tl)
    (hexEncode_not_mem_newline c.tree)
  have hidp : parseID (hexEncode c.tree) = some c.tree := parseID_hexEncode c.tree htr
  rw [decodeCommitFields_step]
  simp only [h1, h2, List.dropLast_concat]
  rw [if_pos trivial]
  simp only [hidp]
  have hres := decodeCommitFields_parents c.parents f
    { zeroCommit with tree := c.tree } tl
    (({ tree := c.tree, parents := c.parents,
        time := normTime ⟨c.time.unix, c.time.offset⟩, message := none } : Commit),
      10 :: c.message.getD [])
    hps
    (by
      intro f3
      rw [← htl]
      have hstep := decodeCommitFields_time f3 c.time.unix c.time.offset (c.message.getD [])
        { zeroCommit with tree := c.tree, parents := [] ++ c.parents } hu1 hu2 ho1 ho2
      simp only [zeroCommit, List.nil_append] at hstep ⊢
      exact hstep)
    (by omega)
  simp only [zeroCommit] at hres ⊢
  rw [hres]
  have hteta : (⟨c.time.unix, c.time.offset⟩ : GoTime) = c.time := rfl
  rcases hm : c.message with _ | m
  · simp [hm, normCommit, normMsg, hteta]
  · by_cases hmm : m = []
    · simp [hm, hmm, normCommit, normMsg, hteta]
    · simp [hm, hmm, normCommit, normMsg, hteta]

/-! ## Lemmas: blob codec and the object store -/

lemma decodeBlob_encodeBlob (data : Bytes) : decodeBlob (encodeBlob data) = some data := by
  unfold decodeBlob encodeBlob
  have htake : (blobHeader ++ data).take 5 = blobHeader := by
    have h0 := List.take_left blobHeader data
    simp only [blobHeader, List.length_cons] at h0 ⊢
    exact h0
  have hdrop : (blobHeader ++ data).drop 5 = data := by
    have h0 := List.drop_left blobHeader data
    simp only [blobHeader, List.length_cons] at h0 ⊢
    exact h0
  rw [if_pos htake, hdrop]

lemma storeGet_storePut_self (objs : List (ID × Bytes)) (id : ID) (bs : Bytes) :
    storeGet (storePut objs id bs) id = some bs := by
  induction objs with
  | nil => simp [storePut, storeGet]
  | cons kv rest ih =>
    rcases kv with ⟨k, v⟩
    unfold storePut
    by_cases hk : k = id
    · rw [if_pos hk]
      simp [storeGet]
    · rw [if_neg hk]
      simp only [storeGet, if_neg hk]
      exact ih

lemma readBlob_writeBlob (st : RepoState) (data : Bytes) :
    readBlob (writeBlob st data).2 (writeBlob st data).1 = .ok data := by
  unfold writeBlob writeObj readBlob
  simp only [storeGet_storePut_self, decodeBlob_encodeBlob]
  rw [if_pos trivial]

lemma readTree_writeTree (st : RepoState) (t : Tree) (h : ValidTree t) :
    readTree (writeTree st t).2 (writeTree st t).1 = .ok (sortTree t) := by
  unfold writeTree writeObj readTree
  simp only [storeGet_storePut_self, decodeTree_encodeTree t h.1]
  rw [if_pos trivial]

set_option maxHeartbeats 1000000 in
lemma readCommit_writeCommit (st : RepoState) (c : Commit) (h : ValidCommit c) :
    readCommit (writeCommit st c).2 (writeCommit st c).1 = .ok (normCommit c) := by
  unfold writeCommit writeObj readCommit
  simp only [storeGet_storePut_self]
  simp only [decodeCommit_encodeCommit c h]
  rw [if_pos trivial]

lemma hexDecode_isSome_iff_aux :
    ∀ (n : Nat) (s : Bytes), s.length ≤ n →
      ((hexDecode s).isSome = true ↔
        (s.length % 2 = 0 ∧ ∀ c ∈ s, (fromHexChar c).isSome = true)) := by
  intro n
  induction n with
  | zero =>
    intro s hs
    rcases s with _ | ⟨a, rest⟩
    · simp [hexDecode]
    · simp at hs
  | succ n ih =>
    intro s hs
    rcases s with _ | ⟨a, _ | ⟨b, rest⟩⟩
    · simp [hexDecode]
    · simp [hexDecode]
    · have ihr := ih rest (by simp only [List.length_cons] at hs; omega)
      unfold hexDecode
      rcases ha : fromHexChar a with _ | x
      · simp only [ha]
        constructor
        · intro hcon
          simp at hcon
        · rintro ⟨-, hall⟩
          have h2 := hall a (by simp)
          rw [ha] at h2
          simp at h2
      · rcases hb : fromHexChar b with _ | y
        · simp only [ha, hb]
          constructor
          · intro hcon
            simp at hcon
          · rintro ⟨-, hall⟩
            have h2 := hall b (by simp)
            rw [hb] at h2
            simp at h2
        · rcases hr : hexDecode rest with _ | tl
          · simp only [ha, hb, hr]
            constructor
            · intro hcon
              simp at hcon
            · rintro ⟨hlen2, hall⟩
              have hc : rest.length % 2 = 0 ∧ ∀ c ∈ rest, (fromHexChar c).isSome = true := by
                refine ⟨?_, fun c hcm => hall c (by simp [hcm])⟩
                simp only [List.length_cons] at hlen2
                omega
              have hcon := ihr.mpr hc
              rw [hr] at hcon
              simp at hcon
          · simp only [ha, hb, hr]
            obtain ⟨hc1, hc2⟩ := ihr.mp (by rw [hr]; rfl)
            constructor
            · rintro -
              refine ⟨by simp only [List.length_cons]; omega, ?_⟩
              intro c hcmem
              rcases List.mem_cons.mp hcmem with rfl | hcmem2
              · rw [ha]
                rfl
              · rcases List.mem_cons.mp hcmem2 with rfl | hcmem3
                · rw [hb]
                  rfl
                · exact hc2 c hcmem3
            · rintro -
              simp

lemma hexDecode_isSome_iff (s : Bytes) :
    (hexDecode s).isSome = true ↔
      (s.length % 2 = 0 ∧ ∀ c ∈ s, (fromHexChar c).isSome = true) :=
  hexDecode_isSome_iff_aux s.length s (le_refl _)

lemma normCommit_eq_self (c : Commit) (hmsg : c.message ≠ some [])
    (htime : c.time.unix = zeroTime.unix → c.time = zeroTime) : normCommit c = c := by
  have ht : normTime c.time = c.time := by
    unfold normTime
    by_cases hu : c.time.unix = -62135596800
    · rw [if_pos hu]
      exact (htime (by rw [hu]; rfl)).symm
    · rw [if_neg hu]
  have hm : normMsg c.message = c.message := by
    unfold normMsg
    rcases hmm : c.message with _ | m
    · simp
    · rcases m with _ | ⟨x, xs⟩
      · exact absurd hmm hmsg
      · simp
  unfold normCommit
  rw [ht, hm]

/-! ## Claim theorems: codec, content addressing, ID parsing -/

/-- C1: codec round trip. Decoding the default-format encoding of a valid
object yields the object back: blobs byte-for-byte; trees up to canonical
name-sorting of the entries (the decoded tree is the ascending-by-name
permutation of the input, names being unique); commits field-wise, except
that a zero-length message decodes to the absent (nil) message and the zero
instant decodes to the zero time value; in particular the zero-value commit
round-trips exactly. -/
theorem c1_codec_round_trip :
    (∀ data : Bytes, decodeBlob (encodeBlob data) = some data)
    ∧ (∀ t : Tree, ValidTree t →
        decodeTree (encodeTree t) = some (sortTree t)
        ∧ (sortTree t).Perm t
        ∧ (sortTree t).Pairwise (fun a b => bytesLt a.name b.name = true))
    ∧ (∀ c : Commit, ValidCommit c →
        decodeCommit (encodeCommit c) = some (normCommit c)
        ∧ (normCommit c).tree = c.tree
        ∧ (normCommit c).parents = c.parents
        ∧ (c.message ≠ some [] → (c.time.unix = zeroTime.unix → c.time = zeroTime) →
            normCommit c = c))
    ∧ decodeCommit (encodeCommit zeroCommit) = some zeroCommit := by
  refine ⟨fun data => decodeBlob_encodeBlob data,
    fun t ht => ⟨decodeTree_encodeTree t ht.1, sortTree_perm t, sortTree_pairwise_strict t ht.2⟩,
    fun c hc => ⟨decodeCommit_encodeCommit c hc, rfl, rfl,
      fun hm hti => normCommit_eq_self c hm hti⟩, ?_⟩
  rw [decodeCommit_encodeCommit zeroCommit (by decide)]
  decide

/-- Witness for C1 at concrete objects, including the repository's own
commit test vector shape. -/
theorem c1_codec_round_trip_witness :
    decodeBlob (encodeBlob [72, 101, 108, 108, 111]) = some [72, 101, 108, 108, 111]
    ∧ ValidTree [⟨kindBlob, [104, 111, 119], [135, 101]⟩, ⟨kindBlob, [104, 105], [18, 52]⟩]
    ∧ decodeTree (encodeTree [⟨kindBlob, [104, 111, 119], [135, 101]⟩,
        ⟨kindBlob, [104, 105], [18, 52]⟩])
      = some (sortTree [⟨kindBlob, [104, 111, 119], [135, 101]⟩,
          ⟨kindBlob, [104, 105], [18, 52]⟩])
    ∧ ValidCommit ⟨[1, 35], [[69]], ⟨1424434473, 3600⟩, some [104, 105]⟩
    ∧ decodeCommit (encodeCommit ⟨[1, 35], [[69]], ⟨1424434473, 3600⟩, some [104, 105]⟩)
        = some ⟨[1, 35], [[69]], ⟨1424434473, 3600⟩, some [104, 105]⟩ := by
  have h := c1_codec_round_trip
  refine ⟨h.1 _, by decide, (h.2.1 _ (by decide)).1, by decide, ?_⟩
  have hc := h.2.2.1 ⟨[1, 35], [[69]], ⟨1424434473, 3600⟩, some [104, 105]⟩ (by decide)
  rw [hc.1, hc.2.2.2 (by decide) (by decide)]

/-- C2: content addressing. `write` returns the SHA-1 digest of the exact
canonical encoding bytes, persists precisely those bytes under that ID, and
reading the ID back with the matching accessor returns the canonicalized
object (sorted tree entries, normalized commit). -/
theorem c2_content_addressing :
    (∀ (st : RepoState) (data : Bytes),
      writeBlob st data
        = (sha1 (encodeBlob data),
            { st with objs := storePut st.objs (sha1 (encodeBlob data)) (encodeBlob data) })
      ∧ readBlob (writeBlob st data).2 (writeBlob st data).1 = .ok data)
    ∧ (∀ (st : RepoState) (t : Tree), ValidTree t →
      writeTree st t
        = (sha1 (encodeTree t),
            { st with objs := storePut st.objs (sha1 (encodeTree t)) (encodeTree t) })
      ∧ readTree (writeTree st t).2 (writeTree st t).1 = .ok (sortTree t))
    ∧ (∀ (st : RepoState) (c : Commit), ValidCommit c →
      writeCommit st c
        = (sha1 (encodeCommit c),
            { st with objs := storePut st.objs (sha1 (encodeCommit c)) (encodeCommit c) })
      ∧ readCommit (writeCommit st c).2 (writeCommit st c).1 = .ok (normCommit c)) :=
  ⟨fun st data => ⟨rfl, readBlob_writeBlob st data⟩,
    fun st t ht => ⟨rfl, readTree_writeTree st t ht⟩,
    fun st c hc => ⟨rfl, readCommit_writeCommit st c hc⟩⟩

/-- Witness for C2 on the empty repository. -/
theorem c2_content_addressing_witness :
    readBlob (writeBlob emptyRepo [97]).2 (writeBlob emptyRepo [97]).1 = .ok [97]
    ∧ ValidTree [⟨kindBlob, [102], []⟩]
    ∧ readTree (writeTree emptyRepo [⟨kindBlob, [102], []⟩]).2
        (writeTree emptyRepo [⟨kindBlob, [102], []⟩]).1
      = .ok (sortTree [⟨kindBlob, [102], []⟩])
    ∧ ValidCommit zeroCommit
    ∧ readCommit (writeCommit emptyRepo zeroCommit).2 (writeCommit emptyRepo zeroCommit).1
        = .ok (normCommit zeroCommit) :=
  ⟨(c2_content_addressing.1 emptyRepo [97]).2, by decide,
    (c2_content_addressing.2.1 emptyRepo _ (by decide)).2, by decide,
    (c2_content_addressing.2.2 emptyRepo zeroCommit (by decide)).2⟩

/-- C9: ID parsing. `ParseID` succeeds exactly when the input has even
length and every character is a hex digit — any even length is accepted,
not only 40 — the empty string parses to the nil ID without error, and the
hex rendering of any byte sequence decodes back to those bytes. -/
theorem c9_parse_id :
    (∀ s : Bytes, (parseID s).isSome = true ↔
      (s.length % 2 = 0 ∧ ∀ c ∈ s, (fromHexChar c).isSome = true))
    ∧ parseID [] = some []
    ∧ (∀ bs : Bytes, (∀ b ∈ bs, b < 256) → parseID (hexEncode bs) = some bs) := by
  refine ⟨?_, rfl, parseID_hexEncode⟩
  intro s
  rcases s with _ | ⟨a, rest⟩
  · simp [parseID]
  · unfold parseID
    rw [if_neg (by simp)]
    exact hexDecode_isSome_iff (a :: rest)

/-- Witness for C9: even-length hex strings of length 2 and 6 parse, and a
concrete byte sequence round-trips through hex. -/
theorem c9_parse_id_witness :
    (parseID [48, 97]).isSome = true
    ∧ (parseID [48, 49, 50, 51, 52, 70]).isSome = true
    ∧ parseID (hexEncode [18, 52]) = some [18, 52] :=
  ⟨(c9_parse_id.1 _).mpr ⟨by decide, by decide⟩,
    (c9_parse_id.1 _).mpr ⟨by decide, by decide⟩,
    c9_parse_id.2.2 [18, 52] (by decide)⟩

/-- C4 (code evidence): `Tree.Add` appends an entry with a new name at the
end instead of inserting it at its sorted position. Adding the name "a" to
the sorted one-entry tree containing "b" yields the entries in the order
b, a — not ascending — and the binary-search `Get` then fails to find the
entry just added. -/
theorem c4_tree_add_appends :
    treeSorted [⟨kindBlob, [98], []⟩] = true
    ∧ treeAdd [⟨kindBlob, [98], []⟩] ⟨kindBlob, [97], []⟩
        = [⟨kindBlob, [98], []⟩, ⟨kindBlob, [97], []⟩]
    ∧ treeSorted (treeAdd [⟨kindBlob, [98], []⟩] ⟨kindBlob, [97], []⟩) = false
    ∧ treeGet (treeAdd [⟨kindBlob, [98], []⟩] ⟨kindBlob, [97], []⟩) [97] = none := by
  decide

/-- C10: `Set` with an empty key fails immediately with the empty-key
error: no blob, tree or commit write is performed and the repository state
(objects and head) is returned unchanged. -/
theorem c10_empty_key_set (st : RepoState) (v : Bytes) (c : Commit) :
    sugarSet st [] v c = ⟨.error .emptyKey, st, 0, 0, 0⟩ := rfl

/-! ## Claim theorems: corruption detection -/

set_option maxRecDepth 8000 in
set_option maxHeartbeats 4000000 in
/-- C3 (counterexample to the claim as stated): flipping the first byte of
a persisted tree object file (the "t" of the "tree\n" header becomes "u")
makes the next read of that ID fail with the bad-prefix decode error — not
the fingerprint-mismatch (corrupt) error the claim names. -/
theorem c3_flip_counterexample :
    sha1 ((encodeTree [⟨kindBlob, [102], []⟩]).set 0 117)
        ≠ sha1 (encodeTree [⟨kindBlob, [102], []⟩])
    ∧ readTree
        ⟨storePut [] (sha1 (encodeTree [⟨kindBlob, [102], []⟩]))
            ((encodeTree [⟨kindBlob, [102], []⟩]).set 0 117), none⟩
        (sha1 (encodeTree [⟨kindBlob, [102], []⟩]))
      = .error .badDecode
    ∧ RepoErr.badDecode ≠ RepoErr.corrupt := by decide

/-- C3 (amended): modifying a byte of a persisted object's file so that the
digest of the file no longer matches its ID makes every read of that ID
fail: with the fingerprint-mismatch (corrupt) error whenever the modified
bytes still decode, and with a decode error otherwise — verification
recomputes the digest over every byte read and compares it to the requested
ID at end of stream. -/
theorem c3_corruption_detection (st : RepoState) (obytes : Bytes) (i v : Nat)
    (hne : sha1 (obytes.set i v) ≠ sha1 obytes) :
    ((∃ e, readBlob { st with objs := storePut st.objs (sha1 obytes) (obytes.set i v) }
        (sha1 obytes) = .error e)
      ∧ ((decodeBlob (obytes.set i v)).isSome = true →
          readBlob { st with objs := storePut st.objs (sha1 obytes) (obytes.set i v) }
            (sha1 obytes) = .error .corrupt))
    ∧ ((∃ e, readTree { st with objs := storePut st.objs (sha1 obytes) (obytes.set i v) }
        (sha1 obytes) = .error e)
      ∧ ((decodeTree (obytes.set i v)).isSome = true →
          readTree { st with objs := storePut st.objs (sha1 obytes) (obytes.set i v) }
            (sha1 obytes) = .error .corrupt))
    ∧ ((∃ e, readCommit { st with objs := storePut st.objs (sha1 obytes) (obytes.set i v) }
        (sha1 obytes) = .error e)
      ∧ ((decodeCommit (obytes.set i v)).isSome = true →
          readCommit { st with objs := storePut st.objs (sha1 obytes) (obytes.set i v) }
            (sha1 obytes) = .error .corrupt)) := by
  refine ⟨⟨?_, ?_⟩, ⟨?_, ?_⟩, ⟨?_, ?_⟩⟩
  · rcases hd : decodeBlob (obytes.set i v) with _ | d
    · exact ⟨.badDecode, by simp only [readBlob, storeGet_storePut_self, hd]⟩
    · refine ⟨.corrupt, ?_⟩
      simp only [readBlob, storeGet_storePut_self, hd]
      rw [if_neg hne]
  · intro hsome
    rcases hd : decodeBlob (obytes.set i v) with _ | d
    · rw [hd] at hsome
      simp at hsome
    · simp only [readBlob, storeGet_storePut_self, hd]
      rw [if_neg hne]
  · rcases hd : decodeTree (obytes.set i v) with _ | d
    · exact ⟨.badDecode, by simp only [readTree, storeGet_storePut_self, hd]⟩
    · refine ⟨.corrupt, ?_⟩
      simp only [readTree, storeGet_storePut_self, hd]
      rw [if_neg hne]
  · intro hsome
    rcases hd : decodeTree (obytes.set i v) with _ | d
    · rw [hd] at hsome
      simp at hsome
    · simp only [readTree, storeGet_storePut_self, hd]
      rw [if_neg hne]
  · rcases hd : decodeCommit (obytes.set i v) with _ | d
    · exact ⟨.badDecode, by simp only [readCommit, storeGet_storePut_self, hd]⟩
    · refine ⟨.corrupt, ?_⟩
      simp only [readCommit, storeGet_storePut_self, hd]
      rw [if_neg hne]
  · intro hsome
    rcases hd : decodeCommit (obytes.set i v) with _ | d
    · rw [hd] at hsome
      simp at hsome
    · simp only [readCommit, storeGet_storePut_self, hd]
      rw [if_neg hne]

set_option maxRecDepth 8000 in
set_option maxHeartbeats 4000000 in
/-- Witness for C3: flipping the content byte of a stored blob (which still
decodes) yields the corrupt error on read. -/
theorem c3_corruption_detection_witness :
    sha1 ((encodeBlob [97]).set 5 98) ≠ sha1 (encodeBlob [97])
    ∧ readBlob { emptyRepo with
          objs := storePut emptyRepo.objs (sha1 (encodeBlob [97])) ((encodeBlob [97]).set 5 98) }
        (sha1 (encodeBlob [97])) = .error .corrupt := by
  have hne : sha1 ((encodeBlob [97]).set 5 98) ≠ sha1 (encodeBlob [97]) := by decide
  exact ⟨hne,
    (c3_corruption_detection emptyRepo (encodeBlob [97]) 5 98 hne).1.2 (by decide)⟩

/-! ## Claim theorems: Get lookup errors -/

lemma getLoop_step (st : RepoState) (tid : ID) (k : Bytes) (rest : List Bytes) :
    getLoop st tid k rest =
      (match readTree st tid with
      | .error e => .error e
      | .ok tree =>
        match treeGet tree k with
        | none => .error .notFound
        | some entry =>
          match rest with
          | [] => readBlob st entry.id
          | k2 :: rest2 => getLoop st entry.id k2 rest2) := by
  rw [getLoop]

lemma getLoopK_resolve (st : RepoState) (pre : List Bytes) :
    ∀ (tid tid2 : ID) (s : Bytes) (post : List Bytes),
      resolvePath st tid pre = .ok tid2 →
      getLoopK st tid (pre ++ s :: post) = getLoopK st tid2 (s :: post) := by
  induction pre with
  | nil =>
    intro tid tid2 s post h
    simp only [resolvePath] at h
    injection h with h2
    rw [h2]
    rfl
  | cons p pre ih =>
    intro tid tid2 s post h
    unfold resolvePath at h
    rcases hrt : readTree st tid with e | t
    · simp only [hrt] at h
      exact Except.noConfusion h
    · simp only [hrt] at h
      rcases hg : treeGet t p with _ | e2
      · simp only [hg] at h
        exact Except.noConfusion h
      · simp only [hg] at h
        show getLoop st tid p (pre ++ s :: post) = _
        rw [getLoop_step]
        simp only [hrt, hg]
        rcases hp : pre with _ | ⟨q, pre2⟩
        · subst hp
          simp only [resolvePath] at h
          injection h with h2
          simp only [List.nil_append]
          rw [h2]
          rfl
        · subst hp
          exact ih e2.id tid2 s post h

lemma sugarGet_eq (st : RepoState) (hid : ID) (c : Commit) (key : List Bytes)
    (hh : st.head = some hid) (hc : readCommit st hid = .ok c) (hk : key ≠ []) :
    sugarGet st key = getLoopK st c.tree key := by
  unfold sugarGet
  simp only [hh, hc]
  rcases key with _ | ⟨k, ks⟩
  · exact absurd rfl hk
  · rfl

lemma decodeTree_blobHeader (r : Bytes) : decodeTree (blobHeader ++ r) = none := by
  unfold decodeTree
  have htake : (blobHeader ++ r).take 5 = blobHeader := by
    have h0 := List.take_left blobHeader r
    simp only [blobHeader, List.length_cons] at h0 ⊢
    exact h0
  rw [htake, if_neg (by decide)]

/-- C6 (amended): resolving a key through the head commit's tree chain, a
segment with no entry in the tree at its level makes `Get` fail with
`NotFound`; a non-final segment whose entry points at a stored blob object
makes `Get` fail with the bad-tree-prefix decode error — for which
`IsNotFound` is false — because the loop follows the entry's ID without
checking its kind and then tries to read the blob as a tree. -/
theorem c6_get_not_found (st : RepoState) (hid : ID) (c : Commit)
    (pre : List Bytes) (s : Bytes) (post : List Bytes) (tid2 : ID) (t : Tree)
    (hh : st.head = some hid) (hc : readCommit st hid = .ok c)
    (hres : resolvePath st c.tree pre = .ok tid2)
    (ht : readTree st tid2 = .ok t) :
    (treeGet t s = none →
      sugarGet st (pre ++ s :: post) = .error .notFound ∧ isNotFound .notFound = true)
    ∧ (∀ (e : Entry) (k2 : Bytes) (post2 : List Bytes) (content : Bytes),
        treeGet t s = some e →
        post = k2 :: post2 →
        storeGet st.objs e.id = some (blobHeader ++ content) →
        sugarGet st (pre ++ s :: post) = .error .badDecode
          ∧ isNotFound .badDecode = false) := by
  have hkeyne : pre ++ s :: post ≠ [] := by simp
  have hsg : sugarGet st (pre ++ s :: post) = getLoopK st c.tree (pre ++ s :: post) :=
    sugarGet_eq st hid c _ hh hc hkeyne
  have hpre := getLoopK_resolve st pre c.tree tid2 s post hres
  constructor
  · intro hnone
    refine ⟨?_, rfl⟩
    rw [hsg, hpre]
    show getLoop st tid2 s post = _
    rw [getLoop_step]
    simp only [ht, hnone]
  · intro e k2 post2 content hget hpost hstore
    refine ⟨?_, rfl⟩
    rw [hsg, hpre]
    subst hpost
    show getLoop st tid2 s (k2 :: post2) = _
    rw [getLoop_step]
    simp only [ht, hget]
    rw [getLoop_step]
    have hrdB : readTree st e.id = .error .badDecode := by
      unfold readTree
      simp only [hstore, decodeTree_blobHeader]
    simp only [hrdB]

set_option maxRecDepth 8000 in
set_option maxHeartbeats 4000000 in
/-- C6 (counterexample to the claim as stated): in a repository whose head
commit maps the single key "a" to a blob, `Get ["a", "x"]` descends into
the blob's ID and fails with the bad-tree-prefix decode error, for which
`IsNotFound` is false — not with `NotFound` as the claim states. -/
theorem c6_blob_segment_counterexample :
    sugarGet c6State [[97], [120]] = .error .badDecode
    ∧ isNotFound .badDecode = false
    ∧ RepoErr.badDecode ≠ RepoErr.notFound := by decide

set_option maxRecDepth 8000 in
set_option maxHeartbeats 4000000 in
/-- Witness for C6 on the concrete one-key repository: a missing first
segment gives `NotFound`; descending through the blob gives the non-NotFound
decode error. -/
theorem c6_get_not_found_witness :
    sugarGet c6State [[98]] = .error .notFound
    ∧ sugarGet c6State [[97], [120]] = .error .badDecode
    ∧ isNotFound .badDecode = false := by
  have hh : c6State.head = some c6CommitId := rfl
  have hc : readCommit c6State c6CommitId = .ok c6Commit := by decide
  have hres : resolvePath c6State c6Commit.tree [] = .ok c6TreeId := rfl
  have ht : readTree c6State c6TreeId = .ok c6Tree := by decide
  refine ⟨((c6_get_not_found c6State c6CommitId c6Commit [] [98] [] c6TreeId c6Tree
      hh hc hres ht).1 (by decide)).1, ?_, rfl⟩
  exact ((c6_get_not_found c6State c6CommitId c6Commit [] [97] [[120]] c6TreeId c6Tree
      hh hc hres ht).2 ⟨kindBlob, [97], c6BlobId⟩ [120] [] [118]
      (by decide) rfl (by decide)).1

/-! ## Claim theorems: Set no-op -/

lemma ascendLoop_leaf_noop (key : List Bytes) (trees : List Tree) (blobID : ID)
    (n : Nat) (st : RepoState) (tw : Nat)
    (hget : treeGet (trees.getD n []) (key.getD n [])
      = some ⟨kindBlob, key.getD n [], blobID⟩) :
    ascendLoop key trees blobID (n + 1) none st tw = (.root none, st, tw) := by
  rw [ascendLoop]
  simp only [hget]
  rw [if_pos trivial]

set_option maxRecDepth 8000 in
set_option maxHeartbeats 4000000 in
/-- C5: Sugar no-op Set. If the head commit's tree chain already maps the
key to a byte-identical blob (the leaf entry collected by the descend phase
equals the candidate blob entry), `Set` returns neither an ID nor an error,
writes no tree and no commit, leaves Head unchanged, and only (re)writes the
blob object. Concretely, setting the same key and value twice performs
exactly one blob, one tree and one commit write on the first call, and the
second call returns no commit ID, performs no tree or commit write, and
leaves the repository state — Head included — literally unchanged. -/
theorem c5_set_noop :
    (∀ (st : RepoState) (hid : ID) (pc c : Commit) (key : List Bytes) (v : Bytes)
       (trees : List Tree) (n : Nat),
      st.head = some hid →
      readCommit st hid = .ok pc →
      collectTrees st pc.tree key = .ok trees →
      key.length = n + 1 →
      treeGet (trees.getD n []) (key.getD n [])
        = some ⟨kindBlob, key.getD n [], sha1 (encodeBlob v)⟩ →
      sugarSet st key v c
        = ⟨.ok none,
            { st with objs := storePut st.objs (sha1 (encodeBlob v)) (encodeBlob v) },
            1, 0, 0⟩)
    ∧ sugarSet emptyRepo [[102]] [97] zeroCommit
        = ⟨.ok (some c5CommitId), c5St1, 1, 1, 1⟩
    ∧ sugarSet c5St1 [[102]] [97] zeroCommit = ⟨.ok none, c5St1, 1, 0, 0⟩ := by
  refine ⟨?_, by decide, by decide⟩
  intro st hid pc c key v trees n hh hc htr hn hget
  unfold sugarSet
  rw [if_neg (by intro hk; rw [hk] at hn; simp at hn)]
  simp only [hh, hc, htr, writeBlob, writeObj]
  rw [hn, ascendLoop_leaf_noop key trees _ n _ _ hget]

set_option maxRecDepth 8000 in
set_option maxHeartbeats 4000000 in
/-- Witness for C5: the no-op condition instantiated on the concrete
repository produced by the first `Set ["f"] "a"`. -/
theorem c5_set_noop_witness :
    sugarSet c5St1 [[102]] [97] zeroCommit
      = ⟨.ok none,
          { c5St1 with objs := storePut c5St1.objs (sha1 (encodeBlob [97])) (encodeBlob [97]) },
          1, 0, 0⟩ :=
  c5_set_noop.1 c5St1 c5CommitId c5Commit zeroCommit [[102]] [97] [c5Tree] 0
    rfl (by decide) (by decide) rfl (by decide)

/-! ## Claim theorems: key enumeration -/

set_option maxRecDepth 8000 in
set_option maxHeartbeats 4000000 in
/-- C7 (code evidence): `Keys` initializes the iterator with the tree
variable left over by the prefix-resolution loop — the nil tree for an
empty prefix, and the parent of the resolved tree for a non-empty prefix —
instead of the tree the prefix resolves to. With an empty prefix over a
stored root tree holding one blob entry "foo", `Next` returns end of
iteration immediately instead of yielding ("foo", blobID); with the prefix
["a"] over a root whose "a" entry is that tree, the iterator enumerates the
parent tree, yielding the key path ["a", "a", "foo"] (the prefix segment
duplicated) instead of ["a", "foo"]. -/
theorem c7_keys_wrong_start :
    (readTree ⟨[(sha1 (encodeTree [⟨kindBlob, [102, 111, 111], [1, 2]⟩]),
          encodeTree [⟨kindBlob, [102, 111, 111], [1, 2]⟩])], none⟩
        (sha1 (encodeTree [⟨kindBlob, [102, 111, 111], [1, 2]⟩]))
      = .ok [⟨kindBlob, [102, 111, 111], [1, 2]⟩])
    ∧ sugarKeys ⟨[(sha1 (encodeTree [⟨kindBlob, [102, 111, 111], [1, 2]⟩]),
          encodeTree [⟨kindBlob, [102, 111, 111], [1, 2]⟩])], none⟩
        (sha1 (encodeTree [⟨kindBlob, [102, 111, 111], [1, 2]⟩])) []
      = .ok ⟨[], [[]]⟩
    ∧ keyIterNext ⟨[(sha1 (encodeTree [⟨kindBlob, [102, 111, 111], [1, 2]⟩]),
          encodeTree [⟨kindBlob, [102, 111, 111], [1, 2]⟩])], none⟩
        10 ⟨[], [[]]⟩ = .eof
    ∧ sugarKeys
        ⟨[(sha1 (encodeTree [⟨kindBlob, [102, 111, 111], [1, 2]⟩]),
            encodeTree [⟨kindBlob, [102, 111, 111], [1, 2]⟩]),
          (sha1 (encodeTree [⟨kindTree, [97], sha1 (encodeTree [⟨kindBlob, [102, 111, 111], [1, 2]⟩])⟩]),
            encodeTree [⟨kindTree, [97], sha1 (encodeTree [⟨kindBlob, [102, 111, 111], [1, 2]⟩])⟩])],
          none⟩
        (sha1 (encodeTree [⟨kindTree, [97], sha1 (encodeTree [⟨kindBlob, [102, 111, 111], [1, 2]⟩])⟩]))
        [[97]]
      = .ok ⟨[[97]], [[⟨kindTree, [97], sha1 (encodeTree [⟨kindBlob, [102, 111, 111], [1, 2]⟩])⟩]]⟩
    ∧ keyIterNext
        ⟨[(sha1 (encodeTree [⟨kindBlob, [102, 111, 111], [1, 2]⟩]),
            encodeTree [⟨kindBlob, [102, 111, 111], [1, 2]⟩]),
          (sha1 (encodeTree [⟨kindTree, [97], sha1 (encodeTree [⟨kindBlob, [102, 111, 111], [1, 2]⟩])⟩]),
            encodeTree [⟨kindTree, [97], sha1 (encodeTree [⟨kindBlob, [102, 111, 111], [1, 2]⟩])⟩])],
          none⟩
        10 ⟨[[97]], [[⟨kindTree, [97], sha1 (encodeTree [⟨kindBlob, [102, 111, 111], [1, 2]⟩])⟩]]⟩
      = .pair [[97], [97], [102, 111, 111]] [1, 2]
          ⟨[[97], [97]],
            [[⟨kindTree, [97], sha1 (encodeTree [⟨kindBlob, [102, 111, 111], [1, 2]⟩])⟩], []]⟩
    ∧ ([[97], [97], [102, 111, 111]] : List Bytes) ≠ [[97], [102, 111, 111]] := by decide

/-! ## Claim theorems: corrupt tree during Set -/

set_option maxHeartbeats 1000000 in
lemma ascendLoop_head (key : List Bytes) (trees : List Tree) (blobID : ID) :
    ∀ (i : Nat) (prev : Option ID) (st : RepoState) (tw : Nat),
      (ascendLoop key trees blobID i prev st tw).2.1.head = st.head := by
  intro i
  induction i with
  | zero =>
    intro prev st tw
    rfl
  | succ i ih =>
    intro prev st tw
    rcases prev with _ | p
    · rw [ascendLoop]
      rcases hget : treeGet (trees.getD i []) (key.getD i []) with _ | ex
      · simp only [hget, writeTree, writeObj]
        exact ih _ _ _
      · simp only [hget]
        split_ifs with heq
        · rfl
        · simp only [writeTree, writeObj]
          exact ih _ _ _
    · rw [ascendLoop]
      rcases hget : treeGet (trees.getD i []) (key.getD i []) with _ | ex
      · simp only [hget, writeTree, writeObj]
        exact ih _ _ _
      · simp only [hget]
        split_ifs with heq
        · rfl
        · simp only [writeTree, writeObj]
          exact ih _ _ _

/-- C8: corrupt-tree detection in the ascend phase of `Set`. If a lower
level already wrote a new tree (the candidate entry carries Kind tree and
the just-written tree's ID) and the tree at the current level already holds
an identical entry, the ascend phase stops with the corrupt-tree error
instead of silently repairing; and every erroring `Set` — this one
included — creates no commit and leaves Head unchanged. -/
theorem c8_corrupt_tree_ascend :
    (∀ (key : List Bytes) (trees : List Tree) (blobID : ID) (st : RepoState)
       (i tw : Nat) (p : ID) (e : Entry),
      treeGet (trees.getD i []) (key.getD i []) = some e →
      e = ⟨kindTree, key.getD i [], p⟩ →
      ascendLoop key trees blobID (i + 1) (some p) st tw = (.fail .corruptTree, st, tw))
    ∧ (∀ (st : RepoState) (key : List Bytes) (v : Bytes) (c : Commit) (e : RepoErr),
      (sugarSet st key v c).res = .error e →
      (sugarSet st key v c).st.head = st.head ∧ (sugarSet st key v c).commitW = 0) := by
  constructor
  · intro key trees blobID st i tw p e hget he
    subst he
    rw [ascendLoop]
    simp only [hget]
    rw [if_pos trivial]
  · intro st key v c e herr
    unfold sugarSet at herr ⊢
    by_cases hk : key = []
    · rw [if_pos hk] at herr ⊢
      exact ⟨rfl, rfl⟩
    · rw [if_neg hk] at herr ⊢
      rcases hh : st.head with _ | hid
      · simp only [hh, writeBlob, writeObj] at herr ⊢
        rcases har : ascendLoop key [] (sha1 (encodeBlob v)) key.length none
            ⟨storePut st.objs (sha1 (encodeBlob v)) (encodeBlob v), none⟩ 0
          with ⟨ar, st2, tw2⟩
        have hhd := ascendLoop_head key [] (sha1 (encodeBlob v)) key.length none
          ⟨storePut st.objs (sha1 (encodeBlob v)) (encodeBlob v), none⟩ 0
        rw [har] at hhd
        simp only [har] at herr ⊢
        rcases ar with rid | e2
        · rcases rid with _ | rid2
          · exact absurd herr (by simp)
          · exact absurd herr (by simp [writeCommit, writeObj])
        · exact ⟨hhd, rfl⟩
      · simp only [hh] at herr ⊢
        rcases hrc : readCommit st hid with er | pc
        · simp only [hrc] at herr ⊢
          exact ⟨hh, trivial⟩
        · simp only [hrc] at herr ⊢
          rcases hct : collectTrees st pc.tree key with er2 | trees
          · simp only [hct] at herr ⊢
            exact ⟨hh, trivial⟩
          · simp only [hct, hh, writeBlob, writeObj] at herr ⊢
            rcases har : ascendLoop key trees (sha1 (encodeBlob v)) key.length none
                ⟨storePut st.objs (sha1 (encodeBlob v)) (encodeBlob v), some hid⟩ 0
              with ⟨ar, st2, tw2⟩
            have hhd := ascendLoop_head key trees (sha1 (encodeBlob v)) key.length none
              ⟨storePut st.objs (sha1 (encodeBlob v)) (encodeBlob v), some hid⟩ 0
            rw [har] at hhd
            simp only [har] at herr ⊢
            rcases ar with rid | e2
            · rcases rid with _ | rid2
              · exact absurd herr (by simp)
              · exact absurd herr (by simp [writeCommit, writeObj])
            · exact ⟨hhd, rfl⟩
/-- Witness for C8: the corrupt-tree trigger on a concrete two-level state
whose parent tree already holds the candidate entry, and the error
postcondition on a concrete failing `Set` (the empty key). -/
theorem c8_corrupt_tree_ascend_witness :
    ascendLoop [[97], [98]] [[⟨kindTree, [97], [5]⟩], []] [7] 1 (some [5]) emptyRepo 3
      = (.fail .corruptTree, emptyRepo, 3)
    ∧ (sugarSet emptyRepo [] [97] zeroCommit).st.head = emptyRepo.head
    ∧ (sugarSet emptyRepo [] [97] zeroCommit).commitW = 0 := by
  refine ⟨c8_corrupt_tree_ascend.1 [[97], [98]] [[⟨kindTree, [97], [5]⟩], []] [7]
    emptyRepo 0 3 [5] ⟨kindTree, [97], [5]⟩ (by decide) rfl, ?_, ?_⟩
  · exact (c8_corrupt_tree_ascend.2 emptyRepo [] [97] zeroCommit .emptyKey rfl).1
  · exact (c8_corrupt_tree_ascend.2 emptyRepo [] [97] zeroCommit .emptyKey rfl).2

end Can
